import Mathlib

/-!
Verification development for the FocosX desktop storage adapter
(`src/focosx_desktop/src-tauri/src/lib.rs`).

The Rust code is shallowly embedded: strings are lists of characters,
the filesystem is a finite tree of named entries, and each Tauri command
becomes a Lean function over an explicit system state.  Fallible code
returns `Except String _`, mirroring the Rust `Result<_, String>`.
-/

namespace Focosx

/-- Strings are modelled as lists of characters (Rust `String` / `&str`). -/
abbrev Str := List Char

/-- Coerce a Lean string literal to the model's string type. -/
def s2l (s : String) : Str := s.data

/-- `str.split_once(c)`: split a string at the first occurrence of `c`,
returning the parts before and after it, or `none` when `c` does not occur. -/
def splitOnce (c : Char) : Str → Option (Str × Str)
  | [] => none
  | x :: xs =>
    if x = c then some ([], xs)
    else (splitOnce c xs).map (fun p => (x :: p.1, p.2))

/-- The node-identifier encoding `format!("{}:{}", vault_id, raw_id)`
(`create_node_cmd` / `rename_node_cmd`). -/
def encodeId (vaultId rawId : Str) : Str := vaultId ++ ':' :: rawId

/-- First path segment of a relative path string (everything before the
first slash). -/
def firstSeg (s : Str) : Str := s.takeWhile (fun ch => ch ≠ '/')

theorem splitOnce_encode (vid rel : Str) (h : ':' ∉ vid) :
    splitOnce ':' (encodeId vid rel) = some (vid, rel) := by
  induction vid with
  | nil => simp [encodeId, splitOnce]
  | cons x xs ih =>
    have hx : x ≠ ':' := fun hc => h (hc ▸ List.mem_cons_self x xs)
    have hxs : ':' ∉ xs := fun hc => h (List.mem_cons_of_mem x hc)
    simp only [encodeId, List.cons_append, splitOnce, if_neg hx]
    rw [show (xs.append (':' :: rel)) = encodeId xs rel from rfl, ih hxs]
    rfl

/-- C2: decoding by splitting on the first colon is the exact inverse of
encoding, for any vault id without a colon and any relative path whose
first segment carries no colon. -/
theorem decode_encode_roundtrip (vid rel : Str)
    (hv : ':' ∉ vid) (_hr : ':' ∉ firstSeg rel) :
    splitOnce ':' (encodeId vid rel) = some (vid, rel) :=
  splitOnce_encode vid rel hv

/-- Witness for C2 at a concrete vault id and relative path. -/
theorem decode_encode_roundtrip_witness :
    splitOnce ':' (encodeId (s2l "vault-1") (s2l "notes/a:b.md")) =
      some (s2l "vault-1", s2l "notes/a:b.md") :=
  decode_encode_roundtrip (s2l "vault-1") (s2l "notes/a:b.md")
    (by decide) (by decide)

/-! ### Paths

Rust `Path`/`PathBuf` values are modelled as a flag saying whether the
path is absolute plus the list of its (non-empty) components. -/

/-- Split a string at every occurrence of `c` (keeping empty pieces). -/
def splitOnChar (c : Char) : Str → List Str
  | [] => [[]]
  | x :: xs =>
    match splitOnChar c xs with
    | [] => [[]]
    | h :: t => if x = c then [] :: h :: t else (x :: h) :: t

/-- A parsed path: `Path::new(s)` with its components. -/
structure RPath where
  absolute : Bool
  segs : List Str
deriving DecidableEq

/-- `Path::new(s)`: absolute iff the string starts with a slash; the
components are the non-empty pieces between slashes. -/
def parsePath (s : Str) : RPath :=
  { absolute := match s with | '/' :: _ => true | _ => false
    segs := (splitOnChar '/' s).filter (fun t => t ≠ []) }

/-- `PathBuf::push`: an absolute argument replaces the path, a relative
one extends it. -/
def pushPath (p q : RPath) : RPath :=
  if q.absolute then q else { absolute := p.absolute, segs := p.segs ++ q.segs }

/-- `Path::parent`: `None` for the root or the empty path, otherwise the
path without its last component. -/
def parentPath (p : RPath) : Option RPath :=
  match p.segs with
  | [] => none
  | _ :: _ => some { absolute := p.absolute, segs := p.segs.dropLast }

/-- Drop a leading run of components; `none` if it is not a leading run. -/
def dropRoot : List Str → List Str → Option (List Str)
  | [], rest => some rest
  | _ :: _, [] => none
  | a :: as, b :: bs => if a = b then dropRoot as bs else none

/-- `Path::strip_prefix`: succeeds when `root`'s components lead `p` and
both agree on absoluteness, returning the remaining components. -/
def stripRoot (root p : RPath) : Except String (List Str) :=
  if root.absolute = p.absolute then
    match dropRoot root.segs p.segs with
    | some r => .ok r
    | none => .error "strip-prefix error"
  else .error "strip-prefix error"

/-- Resolve a path against the process working directory: relative paths
are interpreted under `cwd`, absolute ones stand alone. -/
def resolveP (cwd : List Str) (p : RPath) : List Str :=
  if p.absolute then p.segs else cwd ++ p.segs

/-- Join path components with forward slashes (the
`to_string_lossy().replace("\\", "/")` form used to build raw node ids). -/
def joinSegs : List Str → Str
  | [] => []
  | [s] => s
  | s :: t :: rest => s ++ '/' :: joinSegs (t :: rest)

/-! ### The filesystem

A filesystem is a finite tree: files carry their text content and
directories carry a list of named entries (list order models the
arbitrary order `read_dir` yields entries in). -/

inductive FsNode where
  | file (content : Str)
  | dir (entries : List (Str × FsNode))
deriving Inhabited

/-- Find the entry named `s` in a directory listing. -/
def findEntry (s : Str) : List (Str × FsNode) → Option FsNode
  | [] => none
  | (n, nd) :: rest => if n = s then some nd else findEntry s rest

/-- Replace the (first) entry named `s` by `nd`. -/
def updateEntry (s : Str) (nd : FsNode) : List (Str × FsNode) → List (Str × FsNode)
  | [] => []
  | (n, m) :: rest => if n = s then (n, nd) :: rest else (n, m) :: updateEntry s nd rest

/-- Remove the (first) entry named `s`. -/
def removeEntry (s : Str) : List (Str × FsNode) → List (Str × FsNode)
  | [] => []
  | (n, m) :: rest => if n = s then rest else (n, m) :: removeEntry s rest

/-- Look up the object at a (resolved) path, if any. -/
def FsNode.lookup : FsNode → List Str → Option FsNode
  | nd, [] => some nd
  | .file _, _ :: _ => none
  | .dir es, s :: rest =>
    match findEntry s es with
    | some child => child.lookup rest
    | none => none

/-- `fs::create_dir_all`: create every missing component as a directory;
an existing file anywhere along the path is an error. -/
def FsNode.mkdirAll : FsNode → List Str → Except String FsNode
  | .dir es, [] => .ok (.dir es)
  | .file _, [] => .error "File exists"
  | .file _, _ :: _ => .error "Not a directory"
  | .dir es, s :: rest =>
    match findEntry s es with
    | some child => (child.mkdirAll rest).map (fun c => .dir (updateEntry s c es))
    | none => ((FsNode.dir []).mkdirAll rest).map (fun c => .dir (es ++ [(s, c)]))

/-- `fs::write`: create or truncate the file at the path.  The parent
must already exist as a directory; a directory at the path is an error. -/
def FsNode.writeFile : FsNode → List Str → Str → Except String FsNode
  | _, [], _ => .error "Is a directory"
  | .file _, _ :: _, _ => .error "Not a directory"
  | .dir es, s :: [], content =>
    match findEntry s es with
    | some (.dir _) => .error "Is a directory"
    | some (.file _) => .ok (.dir (updateEntry s (.file content) es))
    | none => .ok (.dir (es ++ [(s, .file content)]))
  | .dir es, s :: r :: rest, content =>
    match findEntry s es with
    | some child => (child.writeFile (r :: rest) content).map (fun c => .dir (updateEntry s c es))
    | none => .error "No such file or directory"

/-- `fs::remove_file`: remove the file at the path; directories and
missing paths are errors. -/
def FsNode.removeFile : FsNode → List Str → Except String FsNode
  | _, [] => .error "Is a directory"
  | .file _, _ :: _ => .error "Not a directory"
  | .dir es, s :: [] =>
    match findEntry s es with
    | some (.file _) => .ok (.dir (removeEntry s es))
    | some (.dir _) => .error "Is a directory"
    | none => .error "No such file or directory"
  | .dir es, s :: r :: rest =>
    match findEntry s es with
    | some child => (child.removeFile (r :: rest)).map (fun c => .dir (updateEntry s c es))
    | none => .error "No such file or directory"

/-- `fs::remove_dir_all`: remove the directory subtree at the path. -/
def FsNode.removeDirAll : FsNode → List Str → Except String FsNode
  | _, [] => .error "Invalid argument"
  | .file _, _ :: _ => .error "Not a directory"
  | .dir es, s :: [] =>
    match findEntry s es with
    | some (.dir _) => .ok (.dir (removeEntry s es))
    | some (.file _) => .error "Not a directory"
    | none => .error "No such file or directory"
  | .dir es, s :: r :: rest =>
    match findEntry s es with
    | some child => (child.removeDirAll (r :: rest)).map (fun c => .dir (updateEntry s c es))
    | none => .error "No such file or directory"

/-- Remove whatever entry sits at the path (no-op when absent); internal
helper for modelling `fs::rename`. -/
def FsNode.removeP : FsNode → List Str → FsNode
  | fs, [] => fs
  | .file c, _ :: _ => .file c
  | .dir es, s :: [] => .dir (removeEntry s es)
  | .dir es, s :: r :: rest =>
    match findEntry s es with
    | some child => .dir (updateEntry s (child.removeP (r :: rest)) es)
    | none => .dir es

/-- Place node `n` at the path, replacing an existing entry; the parent
chain must already exist as directories.  Internal helper for `rename`. -/
def FsNode.insertAt : FsNode → List Str → FsNode → Except String FsNode
  | _, [], _ => .error "Invalid argument"
  | .file _, _ :: _, _ => .error "Not a directory"
  | .dir es, s :: [], n =>
    match findEntry s es with
    | some _ => .ok (.dir (updateEntry s n es))
    | none => .ok (.dir (es ++ [(s, n)]))
  | .dir es, s :: r :: rest, n =>
    match findEntry s es with
    | some child => (child.insertAt (r :: rest) n).map (fun c => .dir (updateEntry s c es))
    | none => .error "No such file or directory"

/-- `fs::rename` (POSIX `rename(2)` / `MoveFileEx` with replace): moves
the object at `src` to `dst`.  An existing file at `dst` is atomically
replaced when the source is a file; an existing empty directory is
replaced when the source is a directory; other conflicts error. -/
def FsNode.rename (fs : FsNode) (src dst : List Str) : Except String FsNode :=
  match fs.lookup src with
  | none => .error "No such file or directory"
  | some n =>
    if src = dst then .ok fs
    else
      match fs.lookup dst with
      | none => (fs.removeP src).insertAt dst n
      | some (.file _) =>
        match n with
        | .file _ => (fs.removeP src).insertAt dst n
        | .dir _ => .error "Not a directory"
      | some (.dir des) =>
        match n, des with
        | .dir _, [] => (fs.removeP src).insertAt dst n
        | .dir _, _ :: _ => .error "Directory not empty"
        | .file _, _ => .error "Is a directory"

/-- `read_text_file`: read the file's content; a missing path (at any
depth) yields the empty string, a directory or a file used as a
directory is an error. -/
def FsNode.readFileE : FsNode → List Str → Except String Str
  | .file c, [] => .ok c
  | .dir _, [] => .error "Is a directory"
  | .file _, _ :: _ => .error "Not a directory"
  | .dir es, s :: rest =>
    match findEntry s es with
    | some child => child.readFileE rest
    | none => .ok []

/-- `read_text_file` over a filesystem. -/
def read_text_file (fs : FsNode) (p : List Str) : Except String Str :=
  fs.readFileE p

/-- The `Ok(s) => s, Err(_) => ""` pattern used by `find_vault_folder_for_file`. -/
def readFileOrEmpty (fs : FsNode) (p : List Str) : Str :=
  match fs.readFileE p with
  | .ok s => s
  | .error _ => []

/-- `write_text_file`: ensure the parent directory exists, then write. -/
def write_text_file (fs : FsNode) (p : List Str) (content : Str) : Except String FsNode :=
  match p with
  | [] => fs.writeFile [] content
  | _ :: _ => do
    let fs1 ← fs.mkdirAll p.dropLast
    fs1.writeFile p content

/-- `let _ = fs::remove_file(..)`: remove a file, ignoring failure. -/
def removeFileQuiet (fs : FsNode) (p : List Str) : FsNode :=
  match fs.removeFile p with
  | .ok fs' => fs'
  | .error _ => fs

/-! ### System state and vault registry

`vaults.json` is modelled in parsed form: the list of descriptor objects,
each with its `id` and optional `path` string (entries lacking an `id`
are irrelevant to every command and omitted).  `base_dir()` and the
process working directory are fixed absolute component lists. -/

structure Vault where
  id : Str
  path : Option Str
deriving DecidableEq

structure Sys where
  fs : FsNode
  vaults : List Vault
  baseDir : List Str
  cwd : List Str

/-- The loop of `save_tree`: is there a registered vault with this id
whose `path` field parses to an absolute path?  (Matching vaults without
a path, or with a relative path, are skipped and the loop continues.) -/
def pathAbsVault (vaults : List Vault) (vaultId : Str) : Bool :=
  vaults.any (fun v =>
    v.id = vaultId &&
      match v.path with
      | some p => (parsePath p).absolute
      | none => false)

/-- `save_tree`: no-op when the vault has an absolute backing path;
otherwise write the tree document to `<base>/trees/<vaultId>.json`. -/
def save_tree (sys : Sys) (vaultId : Str) (json : Str) : Except String Sys :=
  if pathAbsVault sys.vaults vaultId then .ok sys
  else do
    let fs1 ← sys.fs.mkdirAll (sys.baseDir ++ [s2l "trees"])
    let fs2 ← write_text_file fs1 (sys.baseDir ++ [s2l "trees", vaultId ++ s2l ".json"]) json
    .ok { sys with fs := fs2 }

/-- The lookup loop of `load_file_content` / `save_file_content`: the
first registered vault with this id that carries a `path` field (of any
shape); matching vaults without a path are skipped. -/
def vaultFirstPath (vaults : List Vault) (vaultId : Str) : Option Str :=
  vaults.findSome? (fun v => if v.id = vaultId then v.path else none)

/-- The last `path` field seen while scanning for this vault id — the
mutation commands (`create_node_cmd`, `delete_node_cmd`,
`rename_node_cmd`) keep overwriting `vault_path` over the whole loop. -/
def lastVaultPath (vaults : List Vault) (vaultId : Str) : Option Str :=
  vaults.foldl
    (fun acc v =>
      if v.id = vaultId then
        match v.path with
        | some p => some p
        | none => acc
      else acc)
    none

/-- Model of `serde_json` on persisted tree documents, at the granularity
the code consumes them: a document is a bracketed, comma-separated list
of the node ids it contains.  `parseTreeDoc` extracts those ids (`none`
models a parse failure), and `treeDocOf` is the matching serialiser used
to build concrete states. -/
def parseTreeDoc (s : Str) : Option (List Str) :=
  match s with
  | '[' :: rest =>
    if rest.getLast? = some ']' then
      let mid := rest.dropLast
      if mid = [] then some [] else some (splitOnChar ',' mid)
    else none
  | _ => none

/-- Serialise a tree document holding the given node ids (see `parseTreeDoc`). -/
def treeDocOf (ids : List Str) : Str :=
  '[' :: (match ids with
          | [] => []
          | i :: rest => rest.foldl (fun acc x => acc ++ ',' :: x) i) ++ [']']

/-- `find_vault_folder_for_file`: scan all registered vaults; for each,
read its persisted tree (from `<vault>/.focosx/tree.json` when the vault
path is absolute, else from `<base>/trees/<id>.json`, read errors giving
the empty string); if the parsed tree mentions `fileId` and the vault
path is absolute, that vault folder is the answer. -/
def find_vault_folder_for_file (sys : Sys) (fileId : Str) : Option RPath :=
  sys.vaults.findSome? (fun v =>
    let treeJson :=
      match v.path with
      | some pstr =>
        let cand := parsePath pstr
        if cand.absolute then
          readFileOrEmpty sys.fs (cand.segs ++ [s2l ".focosx", s2l "tree.json"])
        else
          readFileOrEmpty sys.fs (sys.baseDir ++ [s2l "trees", v.id ++ s2l ".json"])
      | none => []
    if treeJson ≠ [] then
      match parseTreeDoc treeJson with
      | some ids =>
        if fileId ∈ ids then
          match v.path with
          | some pstr =>
            let cand := parsePath pstr
            if cand.absolute then some cand else none
          | none => none
        else none
      | none => none
    else none)

/-- Side-document location used by the legacy content path inside a
vault folder: `<vault>/.focosx/contents/<fileId>.json`. -/
def vaultSideDoc (vroot : RPath) (fileId : Str) : List Str :=
  vroot.segs ++ [s2l ".focosx", s2l "contents", fileId ++ s2l ".json"]

/-- Side-document location in the app data directory:
`<base>/contents/<fileId>.json`. -/
def appSideDoc (baseDir : List Str) (fileId : Str) : List Str :=
  baseDir ++ [s2l "contents", fileId ++ s2l ".json"]

/-- `load_file_content`: an id of the form `<vaultId>:<relPath>` whose
vault carries a `path` field reads the real file at `<path>/<relPath>`;
otherwise the legacy logic reads a side document (in the vault folder
found by `find_vault_folder_for_file`, else under the app data
directory).  The incidental `ensure_dir` of the vault-side `contents`
directory (whose result the code discards) is omitted: it cannot affect
the returned content. -/
def load_file_content (sys : Sys) (fileId : Str) : Except String Str :=
  let direct : Option (Except String Str) :=
    match splitOnce ':' fileId with
    | some (vaultId, path) =>
      (vaultFirstPath sys.vaults vaultId).map (fun p =>
        read_text_file sys.fs
          (resolveP sys.cwd (pushPath (parsePath p) (parsePath path))))
    | none => none
  match direct with
  | some r => r
  | none =>
    match find_vault_folder_for_file sys fileId with
    | some vroot => read_text_file sys.fs (vaultSideDoc vroot fileId)
    | none => do
      let fs1 ← sys.fs.mkdirAll (sys.baseDir ++ [s2l "contents"])
      fs1.readFileE (appSideDoc sys.baseDir fileId)

/-- `save_file_content`: the mirrored write path of `load_file_content`. -/
def save_file_content (sys : Sys) (fileId : Str) (json : Str) : Except String Sys :=
  let direct : Option (Except String FsNode) :=
    match splitOnce ':' fileId with
    | some (vaultId, path) =>
      (vaultFirstPath sys.vaults vaultId).map (fun p =>
        write_text_file sys.fs
          (resolveP sys.cwd (pushPath (parsePath p) (parsePath path))) json)
    | none => none
  match direct with
  | some r => r.map (fun fs' => { sys with fs := fs' })
  | none =>
    match find_vault_folder_for_file sys fileId with
    | some vroot => do
      let fs1 ← sys.fs.mkdirAll (vroot.segs ++ [s2l ".focosx"])
      let fs2 ← fs1.mkdirAll (vroot.segs ++ [s2l ".focosx", s2l "contents"])
      let fs3 ← write_text_file fs2 (vaultSideDoc vroot fileId) json
      .ok { sys with fs := fs3 }
    | none => do
      let fs1 ← sys.fs.mkdirAll (sys.baseDir ++ [s2l "contents"])
      let fs2 ← write_text_file fs1 (appSideDoc sys.baseDir fileId) json
      .ok { sys with fs := fs2 }

/-- The relative-path part of a node id: everything after the first
colon, or the whole id when it has none. -/
def relOfId (id : Str) : Str :=
  match splitOnce ':' id with
  | some (_, rel) => rel
  | none => id

/-- The `target_path` computation of `create_node_cmd`: the decoded
parent path (everything after the first colon of `parent_id`, or the
whole `parent_id` when it has none) pushed on the vault root, then the
new name pushed on that. -/
def createTarget (root : RPath) (parentId : Option Str) (name : Str) : RPath :=
  pushPath
    (match parentId with
     | some pid =>
       match splitOnce ':' pid with
       | some (_, rel) => pushPath root (parsePath rel)
       | none => pushPath root (parsePath pid)
     | none => root)
    (parsePath name)

/-- `create_node_cmd`: resolve the vault to its `path` field (error when
absent), require the root to exist, join the decoded parent path and the
new name under it, create a directory (`FOLDER`) or an empty file
(anything else), and return the id re-encoded from the path relative to
the root. -/
def create_node_cmd (sys : Sys) (vaultId : Str) (parentId : Option Str)
    (name : Str) (nodeType : Str) : Except String (Str × Sys) :=
  match lastVaultPath sys.vaults vaultId with
  | none => .error "Vault not found or has no path"
  | some pstr =>
    let root := parsePath pstr
    match sys.fs.lookup (resolveP sys.cwd root) with
    | none => .error "Vault path does not exist"
    | some _ =>
      let target := createTarget root parentId name
      let written : Except String FsNode :=
        if nodeType = s2l "FOLDER" then
          sys.fs.mkdirAll (resolveP sys.cwd target)
        else do
          let fs1 ←
            match target.segs with
            | [] => .ok sys.fs
            | _ :: _ => sys.fs.mkdirAll ((resolveP sys.cwd target).dropLast)
          fs1.writeFile (resolveP sys.cwd target) []
      match written with
      | .error e => .error e
      | .ok fs' =>
        match stripRoot root target with
        | .error e => .error e
        | .ok rsegs => .ok (encodeId vaultId (joinSegs rsegs), { sys with fs := fs' })

/-- `delete_node_cmd`: resolve the vault path, decode the id to a path
under the root, and remove it (recursively when it is a directory). -/
def delete_node_cmd (sys : Sys) (vaultId : Str) (id : Str) : Except String Sys :=
  match lastVaultPath sys.vaults vaultId with
  | none => .error "Vault not found or has no path"
  | some pstr =>
    let root := parsePath pstr
    let t := resolveP sys.cwd (pushPath root (parsePath (relOfId id)))
    match sys.fs.lookup t with
    | some (.dir _) => (sys.fs.removeDirAll t).map (fun fs' => { sys with fs := fs' })
    | _ => (sys.fs.removeFile t).map (fun fs' => { sys with fs := fs' })

/-- `rename_node_cmd`: resolve the vault path, decode the id to the old
path, build the new path as `parent(old)/newName`, perform the
filesystem rename, and return the id re-encoded from the new relative
path. -/
def rename_node_cmd (sys : Sys) (vaultId : Str) (id : Str) (newName : Str) :
    Except String (Str × Sys) :=
  match lastVaultPath sys.vaults vaultId with
  | none => .error "Vault not found or has no path"
  | some pstr =>
    let root := parsePath pstr
    let oldP := pushPath root (parsePath (relOfId id))
    match parentPath oldP with
    | none => .error "Invalid path"
    | some par =>
      let newP := pushPath par (parsePath newName)
      match sys.fs.rename (resolveP sys.cwd oldP) (resolveP sys.cwd newP) with
      | .error e => .error e
      | .ok fs' =>
        match stripRoot root newP with
        | .error e => .error e
        | .ok rsegs => .ok (encodeId vaultId (joinSegs rsegs), { sys with fs := fs' })

/-- Path of the persisted tree document of a vault. -/
def treeDocPath (baseDir : List Str) (vaultId : Str) : List Str :=
  baseDir ++ [s2l "trees", vaultId ++ s2l ".json"]

/-- Path of the workspace plugin list of a vault. -/
def wpDocPath (baseDir : List Str) (vaultId : Str) : List Str :=
  baseDir ++ [s2l "workspace_plugins", vaultId ++ s2l ".json"]

/-- `delete_vault`: best-effort removal of `<base>/trees/<id>.json` and
`<base>/workspace_plugins/<id>.json`; always succeeds. -/
def delete_vault (sys : Sys) (vaultId : Str) : Except String Sys :=
  .ok { sys with
        fs := removeFileQuiet
                (removeFileQuiet sys.fs (treeDocPath sys.baseDir vaultId))
                (wpDocPath sys.baseDir vaultId) }

/-! ### The directory scanner -/

/-- `FileSystemNode` of the Rust code. -/
inductive Node where
  | mk (id : Str) (name : Str) (node_type : Str)
       (children : Option (List Node)) (content : Option Str)
       (parent_id : Option Str)

def Node.id : Node → Str
  | .mk i _ _ _ _ _ => i

def Node.name : Node → Str
  | .mk _ n _ _ _ _ => n

def Node.node_type : Node → Str
  | .mk _ _ t _ _ _ => t

def Node.children : Node → Option (List Node)
  | .mk _ _ _ c _ _ => c

def Node.parent_id : Node → Option Str
  | .mk _ _ _ _ _ p => p

/-- `name.starts_with('.')` — the reserved/hidden marker. -/
def hiddenName (s : Str) : Bool :=
  match s with
  | '.' :: _ => true
  | _ => false

/-- Byte-wise string comparison (`str::cmp`; UTF-8 byte order coincides
with code-point order). -/
def strCompare : Str → Str → Ordering
  | [], [] => .eq
  | [], _ :: _ => .lt
  | _ :: _, [] => .gt
  | a :: as, b :: bs =>
    if a = b then strCompare as bs
    else if a < b then .lt
    else .gt

/-- `a.node_type == "FOLDER"`. -/
def isFolderN (a : Node) : Bool := a.node_type = s2l "FOLDER"

/-- The comparator of `scan_directory`'s `sort_by`: folders first, then
case-sensitive lexicographic by name. -/
def cmpNode (a b : Node) : Ordering :=
  if isFolderN a ∧ ¬ isFolderN b then .lt
  else if ¬ isFolderN a ∧ isFolderN b then .gt
  else strCompare a.name b.name

/-- The boolean "not after" form of the comparator. -/
def nodeLe (a b : Node) : Bool :=
  match cmpNode a b with
  | .gt => false
  | _ => true

/-- Stable insertion of a node into an already sorted run (the element
goes before the first element it is `nodeLe`-below-or-tied with). -/
def insertNode (x : Node) : List Node → List Node
  | [] => [x]
  | y :: ys => if nodeLe x y then x :: y :: ys else y :: insertNode x ys

/-- Stable sort by the comparator — extensionally the unique stable sort,
hence the model of Rust's stable `sort_by`. -/
def sortNodes : List Node → List Node
  | [] => []
  | x :: xs => insertNode x (sortNodes xs)

mutual

/-- One `read_dir` entry of `scan_directory`: hidden names are skipped;
otherwise the node is built with its id `<idPre><rel/…/name>`, its kind
from the filesystem shape and the `.canvas` extension, and (for
directories) the recursively scanned children. -/
def scanEntry (rel : List Str) (parentId : Option Str) (idPre : Str)
    (e : Str × FsNode) : Option Node :=
  match e with
  | (name, nd) =>
    if hiddenName name then none
    else
      let relSegs := rel ++ [name]
      let id := idPre ++ joinSegs relSegs
      match nd with
      | .file _ =>
        let t := if (s2l ".canvas").isSuffixOf name then s2l "CANVAS" else s2l "FILE"
        some (Node.mk id name t none none parentId)
      | .dir sub =>
        some (Node.mk id name (s2l "FOLDER")
          (some (scan_directory sub relSegs (some id) idPre)) none parentId)
termination_by (sizeOf e, 0)

/-- The entry loop of `scan_directory`, before sorting. -/
def scanRaw (rel : List Str) (parentId : Option Str) (idPre : Str)
    (entries : List (Str × FsNode)) : List Node :=
  match entries with
  | [] => []
  | e :: rest =>
    match scanEntry rel parentId idPre e with
    | some nd => nd :: scanRaw rel parentId idPre rest
    | none => scanRaw rel parentId idPre rest
termination_by (sizeOf entries, 1)

/-- `scan_directory`: scan the entries of one directory (`rel` is its
path relative to the scanned root) and sort the siblings. -/
def scan_directory (entries : List (Str × FsNode)) (rel : List Str)
    (parentId : Option Str) (idPre : Str) : List Node :=
  sortNodes (scanRaw rel parentId idPre entries)
termination_by (sizeOf entries, 2)

end

/-! ### Toolkit: directory entry lemmas -/

theorem findEntry_updateEntry_self (s : Str) (nd : FsNode) (es : List (Str × FsNode)) :
    findEntry s (updateEntry s nd es) = (findEntry s es).map (fun _ => nd) := by
  induction es with
  | nil => rfl
  | cons e rest ih =>
    obtain ⟨n, m⟩ := e
    by_cases h : n = s
    · simp [updateEntry, findEntry, h]
    · simp [updateEntry, findEntry, h, ih]

theorem findEntry_updateEntry_ne (t s : Str) (nd : FsNode) (es : List (Str × FsNode))
    (h : t ≠ s) : findEntry t (updateEntry s nd es) = findEntry t es := by
  induction es with
  | nil => rfl
  | cons e rest ih =>
    obtain ⟨n, m⟩ := e
    by_cases hn : n = s
    · subst hn
      have hnt : n ≠ t := fun hh => h hh.symm
      simp [updateEntry, findEntry, hnt]
    · simp only [updateEntry, if_neg hn, findEntry]
      by_cases hnt : n = t
      · simp [hnt]
      · simp [hnt, ih]

theorem findEntry_append_of_none (s : Str) (es es' : List (Str × FsNode))
    (h : findEntry s es = none) : findEntry s (es ++ es') = findEntry s es' := by
  induction es with
  | nil => rfl
  | cons e rest ih =>
    obtain ⟨n, m⟩ := e
    by_cases hn : n = s
    · simp [findEntry, hn] at h
    · simp only [findEntry, if_neg hn] at h
      simpa [findEntry, hn] using ih h

theorem findEntry_append_left (s : Str) (es es' : List (Str × FsNode)) (c : FsNode)
    (h : findEntry s es = some c) : findEntry s (es ++ es') = some c := by
  induction es with
  | nil => simp [findEntry] at h
  | cons e rest ih =>
    obtain ⟨n, m⟩ := e
    by_cases hn : n = s
    · simp_all [findEntry]
    · simp only [findEntry, if_neg hn] at h ⊢
      simpa [findEntry, hn] using ih h

theorem findEntry_removeEntry_ne (t s : Str) (es : List (Str × FsNode))
    (h : t ≠ s) : findEntry t (removeEntry s es) = findEntry t es := by
  induction es with
  | nil => rfl
  | cons e rest ih =>
    obtain ⟨n, m⟩ := e
    by_cases hn : n = s
    · subst hn
      have hnt : n ≠ t := fun hh => h hh.symm
      simp [removeEntry, findEntry, hnt]
    · simp only [removeEntry, if_neg hn, findEntry]
      by_cases hnt : n = t
      · simp [hnt]
      · simp [hnt, ih]

theorem findEntry_mem {s : Str} {es : List (Str × FsNode)} {c : FsNode}
    (h : findEntry s es = some c) : (s, c) ∈ es := by
  induction es with
  | nil => simp [findEntry] at h
  | cons e rest ih =>
    obtain ⟨n, m⟩ := e
    by_cases hn : n = s
    · subst hn
      simp [findEntry] at h
      rw [← h]
      exact List.mem_cons_self _ _
    · simp only [findEntry, if_neg hn] at h
      exact List.mem_cons_of_mem _ (ih h)

theorem findEntry_removeEntry_self (s : Str) (es : List (Str × FsNode))
    (h : (es.map Prod.fst).Nodup) : findEntry s (removeEntry s es) = none := by
  induction es with
  | nil => rfl
  | cons e rest ih =>
    obtain ⟨n, m⟩ := e
    simp only [List.map_cons, List.nodup_cons] at h
    by_cases hn : n = s
    · subst hn
      simp only [removeEntry, if_pos rfl]
      cases hfind : findEntry n rest with
      | none => exact hfind
      | some c => exact absurd (List.mem_map_of_mem Prod.fst (findEntry_mem hfind)) h.1
    · simp only [removeEntry, if_neg hn, findEntry, if_neg hn]
      exact ih h.2

theorem updateEntry_map_fst (s : Str) (nd : FsNode) (es : List (Str × FsNode)) :
    (updateEntry s nd es).map Prod.fst = es.map Prod.fst := by
  induction es with
  | nil => rfl
  | cons e rest ih =>
    obtain ⟨n, m⟩ := e
    by_cases hn : n = s <;> simp [updateEntry, hn, ih]

theorem removeEntry_sublist (s : Str) (es : List (Str × FsNode)) :
    (removeEntry s es).Sublist es := by
  induction es with
  | nil => exact List.Sublist.refl _
  | cons e rest ih =>
    obtain ⟨n, m⟩ := e
    by_cases hn : n = s
    · simp only [removeEntry, if_pos hn]
      exact List.sublist_cons_self _ _
    · simp only [removeEntry, if_neg hn]
      exact ih.cons₂ (n, m)

theorem updateEntry_mem {e : Str × FsNode} {s : Str} {nd : FsNode}
    {es : List (Str × FsNode)} (h : e ∈ updateEntry s nd es) :
    e.2 = nd ∨ e ∈ es := by
  induction es with
  | nil => simp [updateEntry] at h
  | cons f rest ih =>
    obtain ⟨n, m⟩ := f
    by_cases hn : n = s
    · simp only [updateEntry, if_pos hn] at h
      rcases List.mem_cons.mp h with h1 | h1
      · exact Or.inl (by simp [h1])
      · exact Or.inr (List.mem_cons_of_mem _ h1)
    · simp only [updateEntry, if_neg hn] at h
      rcases List.mem_cons.mp h with h1 | h1
      · exact Or.inr (h1 ▸ List.mem_cons_self _ _)
      · rcases ih h1 with h2 | h2
        · exact Or.inl h2
        · exact Or.inr (List.mem_cons_of_mem _ h2)

/-! ### Toolkit: filesystem well-formedness

On a real filesystem the names inside one directory are distinct; `Wf`
captures exactly that, recursively. -/

inductive FsNode.Wf : FsNode → Prop where
  | file (c : Str) : FsNode.Wf (.file c)
  | dir (es : List (Str × FsNode)) (hn : (es.map Prod.fst).Nodup)
      (hw : ∀ e ∈ es, FsNode.Wf e.2) : FsNode.Wf (.dir es)

theorem FsNode.Wf.findEntry_wf {es : List (Str × FsNode)} {s : Str} {c : FsNode}
    (h : FsNode.Wf (.dir es)) (hf : findEntry s es = some c) : FsNode.Wf c := by
  cases h with
  | dir es hn hw => exact hw _ (findEntry_mem hf)

theorem FsNode.Wf.updateEntry_wf {es : List (Str × FsNode)} {s : Str} {nd : FsNode}
    (h : FsNode.Wf (.dir es)) (hnd : FsNode.Wf nd) :
    FsNode.Wf (.dir (updateEntry s nd es)) := by
  cases h with
  | dir es hn hw =>
    refine FsNode.Wf.dir _ (by rw [updateEntry_map_fst]; exact hn) ?_
    intro e he
    rcases updateEntry_mem he with h1 | h1
    · exact h1 ▸ hnd
    · exact hw _ h1

theorem FsNode.Wf.removeEntry_wf {es : List (Str × FsNode)} {s : Str}
    (h : FsNode.Wf (.dir es)) : FsNode.Wf (.dir (removeEntry s es)) := by
  cases h with
  | dir es hn hw =>
    refine FsNode.Wf.dir _ (List.Nodup.sublist ((removeEntry_sublist s es).map _) hn) ?_
    intro e he
    exact hw _ ((removeEntry_sublist s es).mem he)

/-! ### Toolkit: path-level lemmas -/

theorem exceptMap_ok {α β : Type} {x : Except String α} {f : α → β} {y : β}
    (h : x.map f = .ok y) : ∃ z, x = .ok z ∧ f z = y := by
  cases x with
  | error e => simp [Except.map] at h
  | ok z => exact ⟨z, rfl, by simpa [Except.map] using h⟩

theorem lookup_append (fs : FsNode) (p q : List Str) :
    fs.lookup (p ++ q) = (fs.lookup p).bind (fun n => n.lookup q) := by
  induction p generalizing fs with
  | nil => simp [FsNode.lookup]
  | cons s rest ih =>
    cases fs with
    | file c => simp [FsNode.lookup]
    | dir es =>
      simp only [List.cons_append, FsNode.lookup]
      cases findEntry s es with
      | none => simp
      | some child => exact ih child

theorem updateEntry_self_of_findEntry {s : Str} {c : FsNode} {es : List (Str × FsNode)}
    (h : findEntry s es = some c) : updateEntry s c es = es := by
  induction es with
  | nil => rfl
  | cons e rest ih =>
    obtain ⟨n, m⟩ := e
    by_cases hn : n = s
    · subst hn
      simp [findEntry] at h
      simp [updateEntry, h]
    · simp only [findEntry, if_neg hn] at h
      simp [updateEntry, hn, ih h]

theorem writeFile_lookup : ∀ (p : List Str) (fs fs' : FsNode) (c : Str),
    fs.writeFile p c = .ok fs' → fs'.lookup p = some (.file c) := by
  intro p
  induction p with
  | nil =>
    intro fs fs' c h
    simp [FsNode.writeFile] at h
  | cons s rest ih =>
    intro fs fs' c h
    cases fs with
    | file _ => simp [FsNode.writeFile] at h
    | dir es =>
      cases rest with
      | nil =>
        cases hf : findEntry s es with
        | none =>
          simp only [FsNode.writeFile, hf] at h
          cases h
          simp [FsNode.lookup, findEntry_append_of_none s es _ hf, findEntry]
        | some child =>
          cases child with
          | file c0 =>
            simp only [FsNode.writeFile, hf] at h
            cases h
            simp [FsNode.lookup, findEntry_updateEntry_self, hf]
          | dir _ => simp [FsNode.writeFile, hf] at h
      | cons r rest' =>
        cases hf : findEntry s es with
        | none => simp [FsNode.writeFile, hf] at h
        | some child =>
          simp only [FsNode.writeFile, hf] at h
          obtain ⟨z, hz, hfz⟩ := exceptMap_ok h
          cases hfz
          simp [FsNode.lookup, findEntry_updateEntry_self, hf, ih _ _ _ hz]

theorem mkdirAll_of_dir : ∀ (p : List Str) (fs : FsNode) (es : List (Str × FsNode)),
    fs.lookup p = some (.dir es) → fs.mkdirAll p = .ok fs := by
  intro p
  induction p with
  | nil =>
    intro fs es h
    simp only [FsNode.lookup] at h
    cases h
    rfl
  | cons s rest ih =>
    intro fs es h
    cases fs with
    | file c => simp [FsNode.lookup] at h
    | dir es0 =>
      simp only [FsNode.lookup] at h
      cases hf : findEntry s es0 with
      | none => simp [hf] at h
      | some child =>
        rw [hf] at h
        simp only [FsNode.mkdirAll, hf]
        rw [ih child es h]
        simp [Except.map, updateEntry_self_of_findEntry hf]

theorem mkdirAll_lookup : ∀ (p q : List Str) (fs fs' : FsNode),
    fs.mkdirAll (p ++ q) = .ok fs' → ∃ es, fs'.lookup p = some (.dir es) := by
  intro p
  induction p with
  | nil =>
    intro q fs fs' h
    induction q generalizing fs fs' with
    | nil =>
      cases fs with
      | file c => simp [FsNode.mkdirAll] at h
      | dir es =>
        simp only [FsNode.mkdirAll] at h
        cases h
        exact ⟨es, rfl⟩
    | cons s rest ihq =>
      cases fs with
      | file c => simp [FsNode.mkdirAll] at h
      | dir es =>
        simp only [List.nil_append, FsNode.mkdirAll] at h
        cases hf : findEntry s es with
        | none =>
          rw [hf] at h
          obtain ⟨z, _, hfz⟩ := exceptMap_ok h
          cases hfz
          exact ⟨_, rfl⟩
        | some child =>
          rw [hf] at h
          obtain ⟨z, _, hfz⟩ := exceptMap_ok h
          cases hfz
          exact ⟨_, rfl⟩
  | cons s rest ih =>
    intro q fs fs' h
    cases fs with
    | file c => simp [FsNode.mkdirAll] at h
    | dir es =>
      simp only [List.cons_append, FsNode.mkdirAll] at h
      cases hf : findEntry s es with
      | none =>
        rw [hf] at h
        obtain ⟨z, hz, hfz⟩ := exceptMap_ok h
        cases hfz
        obtain ⟨es1, hes1⟩ := ih q _ _ hz
        refine ⟨es1, ?_⟩
        simp [FsNode.lookup, findEntry_append_of_none s es _ hf, findEntry, hes1]
      | some child =>
        rw [hf] at h
        obtain ⟨z, hz, hfz⟩ := exceptMap_ok h
        cases hfz
        obtain ⟨es1, hes1⟩ := ih q _ _ hz
        refine ⟨es1, ?_⟩
        simp [FsNode.lookup, findEntry_updateEntry_self, hf, hes1]

theorem exceptBind_ok {α β : Type} {x : Except String α} {f : α → Except String β} {y : β}
    (h : (x >>= f) = .ok y) : ∃ z, x = .ok z ∧ f z = .ok y := by
  cases x with
  | error e => simp [Bind.bind, Except.bind] at h
  | ok z => exact ⟨z, rfl, by simpa [Bind.bind, Except.bind] using h⟩

theorem write_text_file_lookup {fs fs' : FsNode} {p : List Str} {c : Str}
    (hp : p ≠ []) (h : write_text_file fs p c = .ok fs') :
    fs'.lookup p = some (.file c) := by
  cases p with
  | nil => exact absurd rfl hp
  | cons s rest =>
    simp only [write_text_file] at h
    obtain ⟨fs1, _, hw⟩ := exceptBind_ok h
    exact writeFile_lookup _ _ _ _ hw

/-! ### Claim C1: `save_tree` -/

/-- Concrete state for C1: a registered vault with an absolute backing
path whose directory does not exist on disk. -/
def sysC1 : Sys :=
  { fs := .dir []
    vaults := [⟨s2l "v", some (s2l "/gone")⟩]
    baseDir := [s2l "base"]
    cwd := [s2l "home"] }

/-- C1 counterexample: the vault `v` is path-backed (`/gone` is absolute)
and its directory does not exist, yet `save_tree` is still a no-op — the
state is returned unchanged and no tree document for `v` is persisted,
contradicting the claim that in this case the document is overwritten. -/
theorem save_tree_missing_dir_counterexample :
    pathAbsVault sysC1.vaults (s2l "v") = true ∧
    sysC1.fs.lookup (resolveP sysC1.cwd (parsePath (s2l "/gone"))) = none ∧
    save_tree sysC1 (s2l "v") (s2l "[doc]") = .ok sysC1 ∧
    sysC1.fs.lookup (treeDocPath sysC1.baseDir (s2l "v")) = none :=
  ⟨rfl, rfl, rfl, rfl⟩

/-- C1 (amended): `save_tree(vaultId, tree)` is a no-op exactly when some
registered vault with that id carries an absolute backing path —
regardless of whether the directory exists on disk; in every other case
it overwrites the persisted tree document for `vaultId`. -/
theorem save_tree_skip_iff_absolute (sys : Sys) (vaultId json : Str) :
    (pathAbsVault sys.vaults vaultId = true →
      save_tree sys vaultId json = .ok sys) ∧
    (pathAbsVault sys.vaults vaultId = false →
      ∀ sys', save_tree sys vaultId json = .ok sys' →
        sys'.fs.lookup (treeDocPath sys.baseDir vaultId) = some (.file json)) := by
  constructor
  · intro h
    simp [save_tree, h]
  · intro h sys' hok
    simp only [save_tree, h, Bool.false_eq_true, if_false] at hok
    obtain ⟨fs1, _, h2⟩ := exceptBind_ok hok
    obtain ⟨fs2, hw, h3⟩ := exceptBind_ok h2
    simp only [Except.ok.injEq] at h3
    have : sys'.fs = fs2 := by rw [← h3]
    rw [this]
    exact write_text_file_lookup (by simp [treeDocPath]) hw

/-- App-managed companion state for the C1 witness: no vaults at all. -/
def sysC1b : Sys := { fs := .dir [], vaults := [], baseDir := [], cwd := [] }

/-- Witness for C1 on both sides: the path-backed vault of `sysC1` makes
`save_tree` a no-op, and on the vault-less `sysC1b` the document lands in
the trees store. -/
theorem save_tree_skip_iff_absolute_witness :
    (save_tree sysC1 (s2l "v") (s2l "[doc]") = .ok sysC1) ∧
    (FsNode.dir [(s2l "trees", FsNode.dir [(s2l "v.json", FsNode.file (s2l "[doc]"))])]).lookup
        (treeDocPath ([] : List Str) (s2l "v")) = some (.file (s2l "[doc]")) :=
  ⟨(save_tree_skip_iff_absolute sysC1 (s2l "v") (s2l "[doc]")).1 rfl,
   (save_tree_skip_iff_absolute sysC1b (s2l "v") (s2l "[doc]")).2 rfl
     { fs := FsNode.dir [(s2l "trees", FsNode.dir [(s2l "v.json", FsNode.file (s2l "[doc]"))])],
       vaults := [], baseDir := [], cwd := [] } rfl⟩

/-! ### Claim C6: mutations and the vault path -/

/-- Concrete state for C6: a vault registered with a *relative* backing
path `wsub`, which resolves against the working directory `/home`. -/
def sysC6 : Sys :=
  { fs := .dir [(s2l "home", .dir [(s2l "wsub", .dir [])])]
    vaults := [⟨s2l "v", some (s2l "wsub")⟩]
    baseDir := [s2l "base"]
    cwd := [s2l "home"] }

/-- C6 counterexample: the vault's backing path is relative (so by the
claim the vault is app-managed and every mutation must fail without
touching the filesystem), yet `create_node_cmd` succeeds and creates the
file `/home/wsub/a.md`. -/
theorem create_relative_vault_counterexample :
    (parsePath (s2l "wsub")).absolute = false ∧
    create_node_cmd sysC6 (s2l "v") none (s2l "a.md") (s2l "FILE") =
      .ok (s2l "v:a.md",
        { sysC6 with
          fs := .dir [(s2l "home", .dir [(s2l "wsub", .dir [(s2l "a.md", .file [])])])] }) :=
  ⟨rfl, rfl⟩

/-- C6 (amended): create, delete and rename error — before any
filesystem access — exactly when the vault id resolves to no descriptor
carrying a `path` field at all; `create` additionally errors when the
backing path (absolute, or relative hence resolved against the working
directory) does not exist.  A descriptor with a relative path is *not*
rejected: the mutation proceeds against the resolved path. -/
theorem mutation_requires_path_field (sys : Sys) (vaultId : Str)
    (parentId : Option Str) (name nodeType id newName : Str) :
    (lastVaultPath sys.vaults vaultId = none →
      create_node_cmd sys vaultId parentId name nodeType =
          .error "Vault not found or has no path" ∧
      delete_node_cmd sys vaultId id = .error "Vault not found or has no path" ∧
      rename_node_cmd sys vaultId id newName = .error "Vault not found or has no path") ∧
    (∀ pstr, lastVaultPath sys.vaults vaultId = some pstr →
      sys.fs.lookup (resolveP sys.cwd (parsePath pstr)) = none →
      create_node_cmd sys vaultId parentId name nodeType =
        .error "Vault path does not exist") := by
  constructor
  · intro h
    refine ⟨?_, ?_, ?_⟩ <;> simp [create_node_cmd, delete_node_cmd, rename_node_cmd, h]
  · intro pstr h hmiss
    simp [create_node_cmd, h, hmiss]

/-- Witness for C6 at concrete states: an unknown vault id rejects all
three mutations, and a registered-but-missing backing path rejects
`create`. -/
theorem mutation_requires_path_field_witness :
    (create_node_cmd sysC1b (s2l "v") none (s2l "a") (s2l "FILE") =
        .error "Vault not found or has no path") ∧
    (create_node_cmd sysC1 (s2l "v") none (s2l "a") (s2l "FILE") =
        .error "Vault path does not exist") :=
  ⟨((mutation_requires_path_field sysC1b (s2l "v") none (s2l "a") (s2l "FILE")
      (s2l "i") (s2l "n")).1 rfl).1,
   (mutation_requires_path_field sysC1 (s2l "v") none (s2l "a") (s2l "FILE")
      (s2l "i") (s2l "n")).2 (s2l "/gone") rfl rfl⟩

/-! ### Toolkit: `remove_file` lemmas -/

theorem removeFile_lookup_other : ∀ (p : List Str) (fs fs' : FsNode),
    FsNode.Wf fs → fs.removeFile p = .ok fs' →
    ∀ q : List Str, (∀ t, q ++ t ≠ p) → fs'.lookup q = fs.lookup q := by
  intro p
  induction p with
  | nil =>
    intro fs fs' _ h
    simp [FsNode.removeFile] at h
  | cons s rest ih =>
    intro fs fs' hwf h q hq
    cases fs with
    | file c => simp [FsNode.removeFile] at h
    | dir es =>
      cases rest with
      | nil =>
        cases hf : findEntry s es with
        | none => simp [FsNode.removeFile, hf] at h
        | some child =>
          cases child with
          | dir _ => simp [FsNode.removeFile, hf] at h
          | file c0 =>
            simp only [FsNode.removeFile, hf] at h
            cases h
            cases q with
            | nil => exact absurd (by simp) (hq [s])
            | cons t ts =>
              by_cases hts : t = s
              · subst hts
                cases ts with
                | nil => exact absurd (by simp) (hq [])
                | cons u us =>
                  have hnd : (es.map Prod.fst).Nodup := by
                    cases hwf with | dir _ hn _ => exact hn
                  simp [FsNode.lookup, findEntry_removeEntry_self _ _ hnd, hf]
              · simp [FsNode.lookup, findEntry_removeEntry_ne _ _ _ hts]
      | cons r rest' =>
        cases hf : findEntry s es with
        | none => simp [FsNode.removeFile, hf] at h
        | some child =>
          simp only [FsNode.removeFile, hf] at h
          obtain ⟨z, hz, hfz⟩ := exceptMap_ok h
          cases hfz
          have hwfc : FsNode.Wf child := hwf.findEntry_wf hf
          cases q with
          | nil => exact absurd (by simp) (hq (s :: r :: rest'))
          | cons t ts =>
            by_cases hts : t = s
            · subst hts
              have hq' : ∀ u, ts ++ u ≠ r :: rest' := fun u hu =>
                hq u (by rw [List.cons_append, hu])
              simp [FsNode.lookup, findEntry_updateEntry_self, hf,
                ih _ _ hwfc hz ts hq']
            · simp [FsNode.lookup, findEntry_updateEntry_ne _ _ _ _ hts]

theorem removeFile_lookup_self : ∀ (p : List Str) (fs fs' : FsNode),
    FsNode.Wf fs → fs.removeFile p = .ok fs' → fs'.lookup p = none := by
  intro p
  induction p with
  | nil =>
    intro fs fs' _ h
    simp [FsNode.removeFile] at h
  | cons s rest ih =>
    intro fs fs' hwf h
    cases fs with
    | file c => simp [FsNode.removeFile] at h
    | dir es =>
      cases rest with
      | nil =>
        cases hf : findEntry s es with
        | none => simp [FsNode.removeFile, hf] at h
        | some child =>
          cases child with
          | dir _ => simp [FsNode.removeFile, hf] at h
          | file c0 =>
            simp only [FsNode.removeFile, hf] at h
            cases h
            have hnd : (es.map Prod.fst).Nodup := by
              cases hwf with | dir _ hn _ => exact hn
            simp [FsNode.lookup, findEntry_removeEntry_self _ _ hnd]
      | cons r rest' =>
        cases hf : findEntry s es with
        | none => simp [FsNode.removeFile, hf] at h
        | some child =>
          simp only [FsNode.removeFile, hf] at h
          obtain ⟨z, hz, hfz⟩ := exceptMap_ok h
          cases hfz
          simp [FsNode.lookup, findEntry_updateEntry_self, hf,
            ih _ _ (hwf.findEntry_wf hf) hz]

theorem removeFile_wf : ∀ (p : List Str) (fs fs' : FsNode),
    FsNode.Wf fs → fs.removeFile p = .ok fs' → FsNode.Wf fs' := by
  intro p
  induction p with
  | nil =>
    intro fs fs' _ h
    simp [FsNode.removeFile] at h
  | cons s rest ih =>
    intro fs fs' hwf h
    cases fs with
    | file c => simp [FsNode.removeFile] at h
    | dir es =>
      cases rest with
      | nil =>
        cases hf : findEntry s es with
        | none => simp [FsNode.removeFile, hf] at h
        | some child =>
          cases child with
          | dir _ => simp [FsNode.removeFile, hf] at h
          | file c0 =>
            simp only [FsNode.removeFile, hf] at h
            cases h
            exact hwf.removeEntry_wf
      | cons r rest' =>
        cases hf : findEntry s es with
        | none => simp [FsNode.removeFile, hf] at h
        | some child =>
          simp only [FsNode.removeFile, hf] at h
          obtain ⟨z, hz, hfz⟩ := exceptMap_ok h
          cases hfz
          exact hwf.updateEntry_wf (ih _ _ (hwf.findEntry_wf hf) hz)

theorem removeFile_ok_of_file : ∀ (p : List Str) (fs : FsNode) (c : Str),
    fs.lookup p = some (.file c) → p ≠ [] → ∃ fs', fs.removeFile p = .ok fs' := by
  intro p
  induction p with
  | nil => intro fs c _ hp; exact absurd rfl hp
  | cons s rest ih =>
    intro fs c h _
    cases fs with
    | file c0 => simp [FsNode.lookup] at h
    | dir es =>
      simp only [FsNode.lookup] at h
      cases hf : findEntry s es with
      | none => simp [hf] at h
      | some child =>
        rw [hf] at h
        cases rest with
        | nil =>
          simp only [FsNode.lookup] at h
          cases h
          exact ⟨FsNode.dir (removeEntry s es), by simp [FsNode.removeFile, hf]⟩
        | cons r rest' =>
          obtain ⟨fs1, hfs1⟩ := ih child c h (by simp)
          exact ⟨FsNode.dir (updateEntry s fs1 es),
            by simp [FsNode.removeFile, hf, hfs1, Except.map]⟩

theorem removeFileQuiet_lookup_other {fs : FsNode} {p : List Str}
    (hwf : FsNode.Wf fs) (q : List Str) (hq : ∀ t, q ++ t ≠ p) :
    (removeFileQuiet fs p).lookup q = fs.lookup q := by
  unfold removeFileQuiet
  cases h : fs.removeFile p with
  | error e => rfl
  | ok fs' => exact removeFile_lookup_other p fs fs' hwf h q hq

theorem removeFileQuiet_lookup_self_file {fs : FsNode} {p : List Str} {c : Str}
    (hwf : FsNode.Wf fs) (h : fs.lookup p = some (.file c)) (hp : p ≠ []) :
    (removeFileQuiet fs p).lookup p = none := by
  obtain ⟨fs', hfs'⟩ := removeFile_ok_of_file p fs c h hp
  unfold removeFileQuiet
  rw [hfs']
  exact removeFile_lookup_self p fs fs' hwf hfs'

theorem removeFileQuiet_wf {fs : FsNode} {p : List Str} (hwf : FsNode.Wf fs) :
    FsNode.Wf (removeFileQuiet fs p) := by
  unfold removeFileQuiet
  cases h : fs.removeFile p with
  | error e => exact hwf
  | ok fs' => exact removeFile_wf p fs fs' hwf h

/-! ### Claim C9: `delete_vault` -/

theorem treeDoc_ne_wpDoc (baseDir : List Str) (vaultId : Str)
    (t : List Str) : treeDocPath baseDir vaultId ++ t ≠ wpDocPath baseDir vaultId := by
  intro h
  have hlen := congrArg List.length h
  simp [treeDocPath, wpDocPath] at hlen
  subst hlen
  rw [List.append_nil] at h
  have h2 := congrArg (List.drop baseDir.length) h
  rw [treeDocPath, wpDocPath, List.drop_left, List.drop_left] at h2
  have : s2l "trees" = s2l "workspace_plugins" := by
    injection h2
  exact absurd this (by decide)

theorem wpDoc_ne_treeDoc (baseDir : List Str) (vaultId : Str)
    (t : List Str) : wpDocPath baseDir vaultId ++ t ≠ treeDocPath baseDir vaultId := by
  intro h
  have hlen := congrArg List.length h
  simp [treeDocPath, wpDocPath] at hlen
  subst hlen
  rw [List.append_nil] at h
  have h2 := congrArg (List.drop baseDir.length) h
  rw [treeDocPath, wpDocPath, List.drop_left, List.drop_left] at h2
  have : s2l "workspace_plugins" = s2l "trees" := by
    injection h2
  exact absurd this (by decide)

/-- C9: `delete_vault(vaultId)` removes only the derived state of the
vault: it deletes the persisted tree document and workspace-plugin list
when they exist as files, leaves the registry untouched, and — the frame
property — the object at every path that is not one of those two
documents (nor an ancestor directory of them, whose listing necessarily
shrinks) is unchanged; in particular a path-backed vault's backing
directory and everything inside it is never deleted or modified. -/
theorem delete_vault_only_derived_state (sys : Sys) (vaultId : Str)
    (hwf : FsNode.Wf sys.fs) :
    ∀ sys', delete_vault sys vaultId = .ok sys' →
      sys'.vaults = sys.vaults ∧
      (∀ q, (∀ t, q ++ t ≠ treeDocPath sys.baseDir vaultId) →
            (∀ t, q ++ t ≠ wpDocPath sys.baseDir vaultId) →
            sys'.fs.lookup q = sys.fs.lookup q) ∧
      (∀ c, sys.fs.lookup (treeDocPath sys.baseDir vaultId) = some (.file c) →
            sys'.fs.lookup (treeDocPath sys.baseDir vaultId) = none) ∧
      (∀ c, sys.fs.lookup (wpDocPath sys.baseDir vaultId) = some (.file c) →
            sys'.fs.lookup (wpDocPath sys.baseDir vaultId) = none) := by
  intro sys' hok
  have hok' : sys' = { sys with
      fs := removeFileQuiet
              (removeFileQuiet sys.fs (treeDocPath sys.baseDir vaultId))
              (wpDocPath sys.baseDir vaultId) } := by
    simpa [delete_vault] using hok.symm
  subst hok'
  have hwf1 : FsNode.Wf (removeFileQuiet sys.fs (treeDocPath sys.baseDir vaultId)) :=
    removeFileQuiet_wf hwf
  refine ⟨rfl, ?_, ?_, ?_⟩
  · intro q hq1 hq2
    rw [removeFileQuiet_lookup_other hwf1 q hq2,
      removeFileQuiet_lookup_other hwf q hq1]
  · intro c hc
    have h1 : (removeFileQuiet sys.fs (treeDocPath sys.baseDir vaultId)).lookup
        (treeDocPath sys.baseDir vaultId) = none :=
      removeFileQuiet_lookup_self_file hwf hc (by simp [treeDocPath])
    rw [removeFileQuiet_lookup_other hwf1 _ (treeDoc_ne_wpDoc sys.baseDir vaultId), h1]
  · intro c hc
    have h1 : (removeFileQuiet sys.fs (treeDocPath sys.baseDir vaultId)).lookup
        (wpDocPath sys.baseDir vaultId) = some (.file c) := by
      rw [removeFileQuiet_lookup_other hwf _ (wpDoc_ne_treeDoc sys.baseDir vaultId), hc]
    exact removeFileQuiet_lookup_self_file hwf1 h1 (by simp [wpDocPath])

/-- Concrete filesystem for the C9 witness: both derived documents exist
next to a user vault directory. -/
def fsC9 : FsNode :=
  .dir [(s2l "trees", .dir [(s2l "v.json", .file (s2l "T"))]),
        (s2l "workspace_plugins", .dir [(s2l "v.json", .file (s2l "W"))]),
        (s2l "vault", .dir [(s2l "note.md", .file (s2l "N"))])]

def sysC9 : Sys :=
  { fs := fsC9, vaults := [⟨s2l "v", some (s2l "/vault")⟩], baseDir := [], cwd := [] }

theorem fsC9_wf : FsNode.Wf fsC9 := by
  refine .dir _ (by decide) ?_
  intro e he
  simp only [fsC9, List.mem_cons, List.not_mem_nil, or_false] at he
  rcases he with rfl | rfl | rfl
  all_goals
    refine .dir _ (by decide) ?_
    intro f hf
    simp only [List.mem_cons, List.not_mem_nil, or_false] at hf
    rcases hf with rfl
    exact .file _

/-- Witness for C9: on `fsC9`, deleting vault `v` leaves the user file
`/vault/note.md` untouched and removes the persisted tree document. -/
theorem delete_vault_only_derived_state_witness :
    ((removeFileQuiet (removeFileQuiet fsC9 (treeDocPath [] (s2l "v")))
        (wpDocPath [] (s2l "v"))).lookup [s2l "vault", s2l "note.md"] =
      fsC9.lookup [s2l "vault", s2l "note.md"]) ∧
    (removeFileQuiet (removeFileQuiet fsC9 (treeDocPath [] (s2l "v")))
        (wpDocPath [] (s2l "v"))).lookup (treeDocPath [] (s2l "v")) = none := by
  have h := delete_vault_only_derived_state sysC9 (s2l "v") fsC9_wf
    { sysC9 with
      fs := removeFileQuiet
              (removeFileQuiet sysC9.fs (treeDocPath sysC9.baseDir (s2l "v")))
              (wpDocPath sysC9.baseDir (s2l "v")) } rfl
  refine ⟨h.2.1 _ ?_ ?_, h.2.2.1 (s2l "T") rfl⟩
  · intro t hteq
    have hh := congrArg List.head? hteq
    simp [treeDocPath] at hh
    exact absurd hh (by decide)
  · intro t hteq
    have hh := congrArg List.head? hteq
    simp [wpDocPath] at hh
    exact absurd hh (by decide)

/-! ### Toolkit: strip/resolve and idempotence lemmas -/

theorem dropRoot_eq : ∀ (as bs r : List Str), dropRoot as bs = some r → bs = as ++ r := by
  intro as
  induction as with
  | nil =>
    intro bs r h
    simp only [dropRoot, Option.some.injEq] at h
    simp [h]
  | cons a as ih =>
    intro bs r h
    cases bs with
    | nil => simp [dropRoot] at h
    | cons b bs' =>
      simp only [dropRoot] at h
      by_cases hb : a = b
      · rw [if_pos hb] at h
        rw [List.cons_append, ← ih bs' r h, hb]
      · rw [if_neg hb] at h
        cases h

theorem stripRoot_ok {root p : RPath} {r : List Str}
    (h : stripRoot root p = .ok r) :
    root.absolute = p.absolute ∧ p.segs = root.segs ++ r := by
  by_cases ha : root.absolute = p.absolute
  · refine ⟨ha, ?_⟩
    simp only [stripRoot, if_pos ha] at h
    cases hd : dropRoot root.segs p.segs with
    | none => rw [hd] at h; cases h
    | some r' =>
      rw [hd] at h
      cases h
      exact dropRoot_eq _ _ _ hd
  · simp [stripRoot, ha] at h

theorem resolveP_decomp {root p : RPath} {r : List Str} (cwd : List Str)
    (ha : root.absolute = p.absolute) (hs : p.segs = root.segs ++ r) :
    resolveP cwd p = resolveP cwd root ++ r := by
  unfold resolveP
  rw [← ha, hs]
  cases root.absolute <;> simp

theorem mkdirAll_idem : ∀ (p : List Str) (fs fs' : FsNode),
    fs.mkdirAll p = .ok fs' → fs'.mkdirAll p = .ok fs' := by
  intro p
  induction p with
  | nil =>
    intro fs fs' h
    cases fs with
    | file c => simp [FsNode.mkdirAll] at h
    | dir es =>
      simp only [FsNode.mkdirAll] at h
      cases h
      rfl
  | cons s rest ih =>
    intro fs fs' h
    cases fs with
    | file c => simp [FsNode.mkdirAll] at h
    | dir es =>
      simp only [FsNode.mkdirAll] at h
      cases hf : findEntry s es with
      | some child =>
        rw [hf] at h
        obtain ⟨z, hz, hfz⟩ := exceptMap_ok h
        cases hfz
        have hfind : findEntry s (updateEntry s z es) = some z := by
          rw [findEntry_updateEntry_self, hf]
          rfl
        simp only [FsNode.mkdirAll, hfind, ih _ _ hz, Except.map,
          updateEntry_self_of_findEntry hfind]
      | none =>
        rw [hf] at h
        obtain ⟨z, hz, hfz⟩ := exceptMap_ok h
        cases hfz
        have hfind : findEntry s (es ++ [(s, z)]) = some z := by
          rw [findEntry_append_of_none s es _ hf]
          simp [findEntry]
        simp only [FsNode.mkdirAll, hfind, ih _ _ hz, Except.map,
          updateEntry_self_of_findEntry hfind]

theorem lookup_parent_dir {fs : FsNode} {q : List Str} {x : Str} {n : FsNode}
    (h : fs.lookup (q ++ [x]) = some n) : ∃ es, fs.lookup q = some (.dir es) := by
  rw [lookup_append] at h
  cases hq : fs.lookup q with
  | none => rw [hq] at h; cases h
  | some m =>
    rw [hq] at h
    cases m with
    | file c => simp [FsNode.lookup] at h
    | dir es => exact ⟨es, rfl⟩

theorem writeFile_ok_of_file : ∀ (p : List Str) (fs : FsNode) (c d : Str),
    fs.lookup p = some (.file c) → p ≠ [] → ∃ fs', fs.writeFile p d = .ok fs' := by
  intro p
  induction p with
  | nil =>
    intro fs c d _ hp
    exact absurd rfl hp
  | cons s rest ih =>
    intro fs c d h _
    cases fs with
    | file c0 => simp [FsNode.lookup] at h
    | dir es =>
      simp only [FsNode.lookup] at h
      cases hf : findEntry s es with
      | none => simp [hf] at h
      | some child =>
        rw [hf] at h
        cases rest with
        | nil =>
          simp only [FsNode.lookup] at h
          cases h
          exact ⟨FsNode.dir (updateEntry s (.file d) es), by simp [FsNode.writeFile, hf]⟩
        | cons r rest' =>
          obtain ⟨fs1, hfs1⟩ := ih child c d h (by simp)
          exact ⟨FsNode.dir (updateEntry s fs1 es),
            by simp [FsNode.writeFile, hf, hfs1, Except.map]⟩

/-! ### Claim C8: folder creation is idempotent -/

/-- C8: calling `create(vaultId, parent, name, FOLDER)` twice with the
same arguments does not error on the second call, does not duplicate the
folder (the state after the second call is exactly the state after the
first), and both calls return the same encoded id. -/
theorem create_folder_idempotent (sys : Sys) (vid : Str) (pid : Option Str)
    (name id : Str) (sys' : Sys)
    (h : create_node_cmd sys vid pid name (s2l "FOLDER") = .ok (id, sys')) :
    create_node_cmd sys' vid pid name (s2l "FOLDER") = .ok (id, sys') := by
  cases hl : lastVaultPath sys.vaults vid with
  | none => simp [create_node_cmd, hl] at h
  | some pstr =>
  cases hroot : sys.fs.lookup (resolveP sys.cwd (parsePath pstr)) with
  | none => simp [create_node_cmd, hl, hroot] at h
  | some w =>
  cases hw : sys.fs.mkdirAll
      (resolveP sys.cwd (createTarget (parsePath pstr) pid name)) with
  | error e => simp [create_node_cmd, hl, hroot, hw] at h
  | ok fs2 =>
  cases hs : stripRoot (parsePath pstr) (createTarget (parsePath pstr) pid name) with
  | error e => simp [create_node_cmd, hl, hroot, hw, hs] at h
  | ok rsegs =>
          simp only [create_node_cmd, hl, hroot, hw, hs, eq_self_iff_true, if_true,
            Except.ok.injEq, Prod.mk.injEq] at h
          obtain ⟨hid, hsys⟩ := h
          obtain ⟨ha, hsegs⟩ := stripRoot_ok hs
          have hdec := resolveP_decomp sys.cwd ha hsegs
          have hrootdir : ∃ es, fs2.lookup (resolveP sys.cwd (parsePath pstr)) =
              some (.dir es) :=
            mkdirAll_lookup (resolveP sys.cwd (parsePath pstr)) rsegs sys.fs fs2
              (by rw [← hdec]; exact hw)
          obtain ⟨es2, hes2⟩ := hrootdir
          have hvaults : sys'.vaults = sys.vaults := by rw [← hsys]
          have hcwd : sys'.cwd = sys.cwd := by rw [← hsys]
          have hfs : sys'.fs = fs2 := by rw [← hsys]
          simp [create_node_cmd, hvaults, hcwd, hfs, hl, hes2,
            mkdirAll_idem _ _ _ hw, hs, ← hid, ← hsys]

/-- Concrete state for the C8/C10 witnesses: a path-backed vault at
`/vault` containing a folder `docs` and a file `docs/a.md` with content. -/
def sysC8 : Sys :=
  { fs := .dir [(s2l "vault", .dir [(s2l "a.md", .file (s2l "OLD"))])]
    vaults := [⟨s2l "v", some (s2l "/vault")⟩]
    baseDir := [s2l "base"]
    cwd := [] }

/-- The filesystem after creating folder `newdocs` in `sysC8`. -/
def fsC8b : FsNode :=
  .dir [(s2l "vault", .dir [(s2l "a.md", .file (s2l "OLD")), (s2l "newdocs", .dir [])])]

/-- Witness for C8: the first creation of folder `newdocs` succeeds (the
hypothesis, discharged by computation), and by the theorem the second
identical call returns the same id and the same state. -/
theorem create_folder_idempotent_witness :
    create_node_cmd { sysC8 with fs := fsC8b } (s2l "v") none (s2l "newdocs") (s2l "FOLDER") =
      .ok (s2l "v:newdocs", { sysC8 with fs := fsC8b }) :=
  create_folder_idempotent sysC8 (s2l "v") none (s2l "newdocs") (s2l "v:newdocs")
    { sysC8 with fs := fsC8b } rfl

/-! ### Claim C10: file creation truncates an existing file -/

/-- C10: on a vault that resolves to a backing path, `create` with kind
`FILE` or `CANVAS` succeeds even when a file already exists at the
target path (unreduced hypotheses: the vault resolves, the target path
re-encodes under the root, and a file with content `c` sits at the
resolved target), and afterwards the file's content is the empty string:
prior content is silently destroyed rather than an error raised or the
content preserved. -/
theorem create_file_truncates_existing (sys : Sys) (vid : Str) (pid : Option Str)
    (name nodeType pstr c : Str) (rsegs : List Str)
    (hl : lastVaultPath sys.vaults vid = some pstr)
    (ht : nodeType = s2l "FILE" ∨ nodeType = s2l "CANVAS")
    (hs : stripRoot (parsePath pstr) (createTarget (parsePath pstr) pid name) = .ok rsegs)
    (hfile : sys.fs.lookup (resolveP sys.cwd (createTarget (parsePath pstr) pid name)) =
      some (.file c))
    (hne : (createTarget (parsePath pstr) pid name).segs ≠ []) :
    (create_node_cmd sys vid pid name nodeType).isOk = true ∧
    ∀ id sys', create_node_cmd sys vid pid name nodeType = .ok (id, sys') →
      id = encodeId vid (joinSegs rsegs) ∧
      sys'.fs.lookup (resolveP sys.cwd (createTarget (parsePath pstr) pid name)) =
        some (.file []) := by
  have hfol : ¬ (nodeType = s2l "FOLDER") := by
    rcases ht with rfl | rfl <;> decide
  have ha := (stripRoot_ok hs).1
  have hsegs := (stripRoot_ok hs).2
  have hdec := resolveP_decomp sys.cwd ha hsegs
  have hrootsome : ∃ w, sys.fs.lookup (resolveP sys.cwd (parsePath pstr)) = some w := by
    have hfile2 := hfile
    rw [hdec, lookup_append] at hfile2
    cases hq : sys.fs.lookup (resolveP sys.cwd (parsePath pstr)) with
    | none => rw [hq] at hfile2; cases hfile2
    | some m => exact ⟨m, rfl⟩
  obtain ⟨w, hroot⟩ := hrootsome
  have htRes_ne : resolveP sys.cwd (createTarget (parsePath pstr) pid name) ≠ [] := by
    unfold resolveP
    cases (createTarget (parsePath pstr) pid name).absolute with
    | true => simpa using hne
    | false => simp [List.append_eq_nil, hne]
  have hparent : ∃ es, sys.fs.lookup
      ((resolveP sys.cwd (createTarget (parsePath pstr) pid name)).dropLast) =
        some (.dir es) := by
    have hfile2 := hfile
    rw [show resolveP sys.cwd (createTarget (parsePath pstr) pid name) =
        (resolveP sys.cwd (createTarget (parsePath pstr) pid name)).dropLast ++
          [(resolveP sys.cwd (createTarget (parsePath pstr) pid name)).getLast htRes_ne]
      from (List.dropLast_append_getLast htRes_ne).symm] at hfile2
    exact lookup_parent_dir hfile2
  obtain ⟨esP, hparent⟩ := hparent
  have hmk := mkdirAll_of_dir _ _ _ hparent
  obtain ⟨fs', hw⟩ := writeFile_ok_of_file _ _ c [] hfile htRes_ne
  cases htseg : (createTarget (parsePath pstr) pid name).segs with
  | nil => exact absurd htseg hne
  | cons a as =>
    constructor
    · simp [create_node_cmd, hl, hroot, hfol, htseg, hmk, hw, hs, Bind.bind, Except.bind,
        Except.isOk, Except.toBool]
    · intro id sys' h'
      simp only [create_node_cmd, hl, hroot, hfol, htseg, hmk, hw, hs, Bind.bind,
        Except.bind, if_false, eq_self_iff_true, Except.ok.injEq, Prod.mk.injEq] at h'
      obtain ⟨hid, hsys⟩ := h'
      refine ⟨hid.symm, ?_⟩
      rw [← hsys]
      exact writeFile_lookup _ _ _ _ hw

/-- Witness for C10: in `sysC8` the file `a.md` already exists with
content `OLD`; creating it again as a `FILE` succeeds with the same
encoded id and leaves it empty. -/
theorem create_file_truncates_existing_witness :
    s2l "v:a.md" = encodeId (s2l "v") (joinSegs [s2l "a.md"]) ∧
    ({ sysC8 with fs := .dir [(s2l "vault", .dir [(s2l "a.md", .file [])])] } : Sys).fs.lookup
        (resolveP sysC8.cwd (createTarget (parsePath (s2l "/vault")) none (s2l "a.md"))) =
      some (.file []) :=
  (create_file_truncates_existing sysC8 (s2l "v") none (s2l "a.md") (s2l "FILE")
      (s2l "/vault") (s2l "OLD") [s2l "a.md"] rfl (Or.inl rfl) rfl rfl (by decide)).2
    (s2l "v:a.md") { sysC8 with fs := .dir [(s2l "vault", .dir [(s2l "a.md", .file [])])] } rfl

/-! ### Toolkit: `removeP` / `insertAt` lemmas for `rename` -/

theorem removeP_lookup_self : ∀ (pp : List Str) (a : Str) (fs : FsNode),
    FsNode.Wf fs → (fs.removeP (pp ++ [a])).lookup (pp ++ [a]) = none := by
  intro pp
  induction pp with
  | nil =>
    intro a fs hwf
    cases fs with
    | file c => simp [FsNode.removeP, FsNode.lookup]
    | dir es =>
      have hnd : (es.map Prod.fst).Nodup := by
        cases hwf with | dir _ hn _ => exact hn
      simp [FsNode.removeP, FsNode.lookup, findEntry_removeEntry_self _ _ hnd]
  | cons s pp' ih =>
    intro a fs hwf
    cases fs with
    | file c => simp [FsNode.removeP, FsNode.lookup]
    | dir es =>
      cases hpa : pp' ++ [a] with
      | nil => exact absurd hpa (by simp)
      | cons u us =>
        simp only [List.cons_append, hpa, FsNode.removeP]
        cases hf : findEntry s es with
        | none => simp [FsNode.lookup, hf]
        | some child =>
          have hchild := hwf.findEntry_wf hf
          have hfind : findEntry s (updateEntry s (child.removeP (u :: us)) es) =
              some (child.removeP (u :: us)) := by
            rw [findEntry_updateEntry_self, hf]
            rfl
          simp only [FsNode.lookup, hfind]
          rw [← hpa]
          exact ih a child hchild

theorem removeP_wf : ∀ (p : List Str) (fs : FsNode),
    FsNode.Wf fs → FsNode.Wf (fs.removeP p) := by
  intro p
  induction p with
  | nil => intro fs hwf; cases fs <;> exact hwf
  | cons s rest ih =>
    intro fs hwf
    cases fs with
    | file c => exact hwf
    | dir es =>
      cases rest with
      | nil => exact hwf.removeEntry_wf
      | cons r rest' =>
        simp only [FsNode.removeP]
        cases hf : findEntry s es with
        | none => exact hwf
        | some child =>
          exact hwf.updateEntry_wf (ih child (hwf.findEntry_wf hf))

theorem removeP_last_dir : ∀ (pp : List Str) (a : Str) (fs : FsNode)
    (es : List (Str × FsNode)), fs.lookup pp = some (.dir es) →
    (fs.removeP (pp ++ [a])).lookup pp = some (.dir (removeEntry a es)) := by
  intro pp
  induction pp with
  | nil =>
    intro a fs es h
    simp only [FsNode.lookup] at h
    cases h
    simp [FsNode.removeP, FsNode.lookup]
  | cons s pp' ih =>
    intro a fs es h
    cases fs with
    | file c => simp [FsNode.lookup] at h
    | dir es0 =>
      simp only [FsNode.lookup] at h
      cases hf : findEntry s es0 with
      | none => simp [hf] at h
      | some child =>
        rw [hf] at h
        cases hpa : pp' ++ [a] with
        | nil => exact absurd hpa (by simp)
        | cons u us =>
          simp only [List.cons_append, hpa, FsNode.removeP, hf]
          have hfind : findEntry s (updateEntry s (child.removeP (u :: us)) es0) =
              some (child.removeP (u :: us)) := by
            rw [findEntry_updateEntry_self, hf]
            rfl
          simp only [FsNode.lookup, hfind]
          rw [← hpa]
          exact ih a child es h

theorem insertAt_sibling : ∀ (pp : List Str) (b : Str) (n : FsNode) (fs : FsNode)
    (es : List (Str × FsNode)), fs.lookup pp = some (.dir es) →
    ∃ fs', fs.insertAt (pp ++ [b]) n = .ok fs' ∧
      fs'.lookup (pp ++ [b]) = some n ∧
      (∀ t, t ≠ b → fs'.lookup (pp ++ [t]) = fs.lookup (pp ++ [t])) := by
  intro pp
  induction pp with
  | nil =>
    intro b n fs es h
    simp only [FsNode.lookup] at h
    cases h
    cases hf : findEntry b es with
    | some old =>
      refine ⟨.dir (updateEntry b n es), by simp [FsNode.insertAt, hf], ?_, ?_⟩
      · have : findEntry b (updateEntry b n es) = some n := by
          rw [findEntry_updateEntry_self, hf]
          rfl
        simp [FsNode.lookup, this]
      · intro t ht
        simp [FsNode.lookup, findEntry_updateEntry_ne _ _ _ _ ht]
    | none =>
      refine ⟨.dir (es ++ [(b, n)]), by simp [FsNode.insertAt, hf], ?_, ?_⟩
      · have : findEntry b (es ++ [(b, n)]) = some n := by
          rw [findEntry_append_of_none _ _ _ hf]
          simp [findEntry]
        simp [FsNode.lookup, this]
      · intro t ht
        cases hte : findEntry t es with
        | some x => simp [FsNode.lookup, findEntry_append_left _ _ _ _ hte, hte]
        | none =>
          rw [show FsNode.lookup (.dir (es ++ [(b, n)])) ([] ++ [t]) =
              FsNode.lookup (.dir (es ++ [(b, n)])) [t] from rfl]
          simp only [FsNode.lookup, findEntry_append_of_none _ _ _ hte]
          simp [FsNode.lookup, findEntry, (Ne.symm ht : b ≠ t), hte]
  | cons s pp' ih =>
    intro b n fs es h
    cases fs with
    | file c => simp [FsNode.lookup] at h
    | dir es0 =>
      simp only [FsNode.lookup] at h
      cases hf : findEntry s es0 with
      | none => simp [hf] at h
      | some child =>
        rw [hf] at h
        obtain ⟨z, hz, hzb, hzt⟩ := ih b n child es h
        have hfind : findEntry s (updateEntry s z es0) = some z := by
          rw [findEntry_updateEntry_self, hf]
          rfl
        refine ⟨.dir (updateEntry s z es0), ?_, ?_, ?_⟩
        · cases hrest : pp' ++ [b] with
          | nil => exact absurd hrest (by simp)
          | cons u us =>
            rw [hrest] at hz
            simp only [List.cons_append, hrest, FsNode.insertAt, hf, hz, Except.map]
        · simp only [List.cons_append, FsNode.lookup, hfind]
          exact hzb
        · intro t ht
          simp only [List.cons_append, FsNode.lookup, hfind, hf]
          exact hzt t ht

/-- Renaming between two sibling files: the destination (existing file
or absent) is replaced by the source file's content and the source
disappears; the rename succeeds. -/
theorem rename_sibling_file (pp : List Str) (a b : Str) (fs : FsNode) (c : Str)
    (hwf : FsNode.Wf fs) (hab : a ≠ b)
    (ha : fs.lookup (pp ++ [a]) = some (.file c))
    (hb : (∃ d, fs.lookup (pp ++ [b]) = some (.file d)) ∨ fs.lookup (pp ++ [b]) = none) :
    ∃ fs', fs.rename (pp ++ [a]) (pp ++ [b]) = .ok fs' ∧
      fs'.lookup (pp ++ [b]) = some (.file c) ∧
      fs'.lookup (pp ++ [a]) = none := by
  have hnedst : pp ++ [a] ≠ pp ++ [b] := by
    intro hh
    exact hab (by simpa using hh)
  obtain ⟨esP, hesP⟩ := lookup_parent_dir ha
  have hremdir : (fs.removeP (pp ++ [a])).lookup pp = some (.dir (removeEntry a esP)) :=
    removeP_last_dir pp a fs esP hesP
  obtain ⟨fs', hins, hinsb, hinst⟩ :=
    insertAt_sibling pp b (.file c) (fs.removeP (pp ++ [a])) _ hremdir
  have hgone : fs'.lookup (pp ++ [a]) = none := by
    rw [hinst a hab]
    exact removeP_lookup_self pp a fs hwf
  refine ⟨fs', ?_, hinsb, hgone⟩
  rcases hb with ⟨d, hd⟩ | hd <;>
    simp only [FsNode.rename, ha, if_neg hnedst, hd] <;>
    exact hins

/-! ### Claim C7: `rename_node_cmd` -/

/-- Concrete state for C7: a path-backed vault `/vlt` containing two
files `a.md` (content `A`) and `b.md` (content `B`). -/
def sysC7 : Sys :=
  { fs := .dir [(s2l "vlt",
        .dir [(s2l "a.md", .file (s2l "A")), (s2l "b.md", .file (s2l "B"))])]
    vaults := [⟨s2l "v", some (s2l "/vlt")⟩]
    baseDir := [s2l "base"]
    cwd := [] }

/-- C7 counterexample: an entry already exists at the destination path
`b.md`, yet renaming `a.md` to `b.md` does not surface an error — it
succeeds and silently overwrites `b.md` with `a.md`'s content (the
semantics of `fs::rename`, which replaces an existing destination
file). -/
theorem rename_overwrites_counterexample :
    sysC7.fs.lookup [s2l "vlt", s2l "b.md"] = some (.file (s2l "B")) ∧
    rename_node_cmd sysC7 (s2l "v") (s2l "v:a.md") (s2l "b.md") =
      .ok (s2l "v:b.md",
        { sysC7 with fs := .dir [(s2l "vlt", .dir [(s2l "b.md", .file (s2l "A"))])] }) :=
  ⟨rfl, rfl⟩

/-- A uniform view of `resolveP`. -/
theorem resolveP_eq (cwd : List Str) (p : RPath) :
    resolveP cwd p = (if p.absolute then [] else cwd) ++ p.segs := by
  unfold resolveP
  cases p.absolute <;> simp

/-- C7 (amended): `rename(vaultId, id, newName)` computes the new path
as `parent(oldPath)/newName` and returns the id re-encoded from the new
relative path; but when a *file* already exists at the destination path
the rename does not error: following `fs::rename` semantics it
atomically replaces the destination with the source file, which then no
longer exists under its old name.  (Errors still surface for other
conflicts, e.g. a directory at the destination.) -/
theorem rename_node_parent_newname_replaces (sys : Sys)
    (vid id newName pstr nm c : Str) (oldP : RPath) (rsegs : List Str)
    (hwf : FsNode.Wf sys.fs)
    (hl : lastVaultPath sys.vaults vid = some pstr)
    (hold : pushPath (parsePath pstr) (parsePath (relOfId id)) = oldP)
    (hone : oldP.segs ≠ [])
    (hnm : parsePath newName = RPath.mk false [nm])
    (hab : oldP.segs.getLast hone ≠ nm)
    (hsrc : sys.fs.lookup (resolveP sys.cwd oldP) = some (.file c))
    (hdst : (∃ d, sys.fs.lookup
        (resolveP sys.cwd (RPath.mk oldP.absolute (oldP.segs.dropLast ++ [nm]))) =
          some (.file d)) ∨
      sys.fs.lookup
        (resolveP sys.cwd (RPath.mk oldP.absolute (oldP.segs.dropLast ++ [nm]))) = none)
    (hstrip : stripRoot (parsePath pstr)
        (RPath.mk oldP.absolute (oldP.segs.dropLast ++ [nm])) = .ok rsegs) :
    (rename_node_cmd sys vid id newName).isOk = true ∧
    ∀ rid sys', rename_node_cmd sys vid id newName = .ok (rid, sys') →
      rid = encodeId vid (joinSegs rsegs) ∧
      sys'.fs.lookup
          (resolveP sys.cwd (RPath.mk oldP.absolute (oldP.segs.dropLast ++ [nm]))) =
        some (.file c) ∧
      sys'.fs.lookup (resolveP sys.cwd oldP) = none := by
  have hsplit : oldP.segs = oldP.segs.dropLast ++ [oldP.segs.getLast hone] :=
    (List.dropLast_append_getLast hone).symm
  have e1 : resolveP sys.cwd oldP =
      ((if oldP.absolute then [] else sys.cwd) ++ oldP.segs.dropLast) ++
        [oldP.segs.getLast hone] := by
    rw [resolveP_eq]
    conv_lhs => rw [hsplit]
    rw [List.append_assoc]
  have e2 : resolveP sys.cwd (RPath.mk oldP.absolute (oldP.segs.dropLast ++ [nm])) =
      ((if oldP.absolute then [] else sys.cwd) ++ oldP.segs.dropLast) ++ [nm] := by
    rw [resolveP_eq]
    simp [List.append_assoc]
  rw [e1] at hsrc
  rw [e2] at hdst
  obtain ⟨fs', hren, hlb, hla⟩ := rename_sibling_file
    ((if oldP.absolute then [] else sys.cwd) ++ oldP.segs.dropLast)
    (oldP.segs.getLast hone) nm sys.fs c hwf hab hsrc hdst
  have hpp : parentPath oldP = some (RPath.mk oldP.absolute oldP.segs.dropLast) := by
    obtain ⟨ab, segs⟩ := oldP
    cases segs with
    | nil => exact absurd rfl hone
    | cons x xs => rfl
  have hpush : pushPath (RPath.mk oldP.absolute oldP.segs.dropLast) (parsePath newName) =
      RPath.mk oldP.absolute (oldP.segs.dropLast ++ [nm]) := by
    rw [hnm]
    simp [pushPath]
  have hren' : sys.fs.rename (resolveP sys.cwd oldP)
      (resolveP sys.cwd (RPath.mk oldP.absolute (oldP.segs.dropLast ++ [nm]))) =
        .ok fs' := by
    rw [e1, e2]
    exact hren
  constructor
  · simp [rename_node_cmd, hl, hold, hpp, hpush, hren', hstrip, Except.isOk, Except.toBool]
  · intro rid sys' h'
    simp only [rename_node_cmd, hl, hold, hpp, hpush, hren', hstrip,
      Except.ok.injEq, Prod.mk.injEq] at h'
    obtain ⟨hid, hsys⟩ := h'
    refine ⟨hid.symm, ?_, ?_⟩
    · rw [← hsys, e2]
      exact hlb
    · rw [← hsys, e1]
      exact hla

/-- Witness for C7 on `sysC7`: rename succeeds over the occupied
destination, returns `v:b.md`, and the content `A` has replaced `B`. -/
theorem rename_node_parent_newname_replaces_witness :
    (rename_node_cmd sysC7 (s2l "v") (s2l "v:a.md") (s2l "b.md")).isOk = true :=
  (rename_node_parent_newname_replaces sysC7 (s2l "v") (s2l "v:a.md") (s2l "b.md")
    (s2l "/vlt") (s2l "b.md") (s2l "A") (RPath.mk true [s2l "vlt", s2l "a.md"])
    [s2l "b.md"]
    (by
      refine .dir _ (by decide) ?_
      intro e he
      simp only [sysC7, List.mem_cons, List.not_mem_nil, or_false] at he
      rcases he with rfl
      refine .dir _ (by decide) ?_
      intro f hf
      simp only [List.mem_cons, List.not_mem_nil, or_false] at hf
      rcases hf with rfl | rfl <;> exact .file _)
    rfl rfl (by decide) rfl (by decide) rfl (Or.inl ⟨s2l "B", rfl⟩) rfl).1

/-! ### Claim C5: the content store -/

theorem read_text_file_of_file : ∀ (p : List Str) (fs : FsNode) (c : Str),
    fs.lookup p = some (.file c) → fs.readFileE p = .ok c := by
  intro p
  induction p with
  | nil =>
    intro fs c h
    simp only [FsNode.lookup] at h
    cases h
    rfl
  | cons s rest ih =>
    intro fs c h
    cases fs with
    | file c0 => simp [FsNode.lookup] at h
    | dir es =>
      simp only [FsNode.lookup] at h
      cases hf : findEntry s es with
      | none => simp [hf] at h
      | some child =>
        rw [hf] at h
        simp only [FsNode.readFileE, hf]
        exact ih child c h

/-- Concrete state for C5: vault `v` is registered with the *relative*
backing path `w`; the real file `/home/w/note.md` holds `REAL` while the
app-managed side document for the node id holds `SIDE`. -/
def sysC5 : Sys :=
  { fs := .dir [(s2l "home", .dir [(s2l "w", .dir [(s2l "note.md", .file (s2l "REAL"))])]),
                (s2l "base", .dir [(s2l "contents",
                    .dir [(s2l "v:note.md.json", .file (s2l "SIDE"))])])]
    vaults := [⟨s2l "v", some (s2l "w")⟩]
    baseDir := [s2l "base"]
    cwd := [s2l "home"] }

/-- C5 counterexample: the vault's backing path `w` is relative, so by
the claim content must fall back to side-document storage (`SIDE`); but
the code takes the direct branch anyway and reads the real file
`/home/w/note.md` (`REAL`). -/
theorem content_relative_vault_counterexample :
    (parsePath (s2l "w")).absolute = false ∧
    sysC5.fs.lookup (appSideDoc sysC5.baseDir (s2l "v:note.md")) =
      some (.file (s2l "SIDE")) ∧
    load_file_content sysC5 (s2l "v:note.md") = .ok (s2l "REAL") :=
  ⟨rfl, rfl, rfl⟩

/-- C5 (amended): for a node id `<vid>:<relPath>`, content load and save
operate on the real file at `backingPath/relPath` (resolved against the
working directory when the backing path is relative) exactly when some
registered vault with id `vid` carries a `path` field — absolute or not;
only when no such vault exists does content fall back to side-document
storage (a vault-side `.focosx/contents/<id>.json` document, or the
app-managed `contents/<id>.json` store). -/
theorem content_direct_iff_path_field (sys : Sys) (fileId vid rel pstr c json : Str)
    (hsplit : splitOnce ':' fileId = some (vid, rel)) :
    (vaultFirstPath sys.vaults vid = some pstr →
      sys.fs.lookup (resolveP sys.cwd (pushPath (parsePath pstr) (parsePath rel))) =
          some (.file c) →
      load_file_content sys fileId = .ok c) ∧
    (vaultFirstPath sys.vaults vid = some pstr →
      ∀ sys', save_file_content sys fileId json = .ok sys' →
        sys'.fs.lookup (resolveP sys.cwd (pushPath (parsePath pstr) (parsePath rel))) =
          some (.file json)) ∧
    (vaultFirstPath sys.vaults vid = none →
      ∀ sys', save_file_content sys fileId json = .ok sys' →
        (∃ vroot, find_vault_folder_for_file sys fileId = some vroot ∧
          sys'.fs.lookup (vaultSideDoc vroot fileId) = some (.file json)) ∨
        (find_vault_folder_for_file sys fileId = none ∧
          sys'.fs.lookup (appSideDoc sys.baseDir fileId) = some (.file json))) := by
  refine ⟨?_, ?_, ?_⟩
  · intro hvf hfile
    simp only [load_file_content, hsplit, hvf, Option.map_some']
    exact read_text_file_of_file _ _ _ hfile
  · intro hvf sys' h'
    simp only [save_file_content, hsplit, hvf, Option.map_some'] at h'
    obtain ⟨fs2, hw, hfz⟩ := exceptMap_ok h'
    have hfs : sys'.fs = fs2 := by rw [← hfz]
    rw [hfs]
    cases hp : resolveP sys.cwd (pushPath (parsePath pstr) (parsePath rel)) with
    | nil =>
      rw [hp] at hw
      simp [write_text_file, FsNode.writeFile] at hw
    | cons u us =>
      rw [hp] at hw
      exact write_text_file_lookup (by simp) hw
  · intro hvf sys' h'
    simp only [save_file_content, hsplit, hvf] at h'
    cases hfind : find_vault_folder_for_file sys fileId with
    | some vroot =>
      rw [hfind] at h'
      refine Or.inl ⟨vroot, rfl, ?_⟩
      obtain ⟨fs1, h1, h2⟩ := exceptBind_ok h'
      obtain ⟨fs2, h3, h4⟩ := exceptBind_ok h2
      obtain ⟨fs3, h5, h6⟩ := exceptBind_ok h4
      simp only [Except.ok.injEq] at h6
      have hfs : sys'.fs = fs3 := by rw [← h6]
      rw [hfs]
      exact write_text_file_lookup (by simp [vaultSideDoc]) h5
    | none =>
      rw [hfind] at h'
      refine Or.inr ⟨rfl, ?_⟩
      obtain ⟨fs1, h1, h2⟩ := exceptBind_ok h'
      obtain ⟨fs2, h3, h4⟩ := exceptBind_ok h2
      simp only [Except.ok.injEq] at h4
      have hfs : sys'.fs = fs2 := by rw [← h4]
      rw [hfs]
      exact write_text_file_lookup (by simp [appSideDoc]) h3

/-- The filesystem of `sysC5` after saving `NEW` under `v:note.md`. -/
def fsC5b : FsNode :=
  .dir [(s2l "home", .dir [(s2l "w", .dir [(s2l "note.md", .file (s2l "NEW"))])]),
        (s2l "base", .dir [(s2l "contents",
            .dir [(s2l "v:note.md.json", .file (s2l "SIDE"))])])]

/-- The filesystem of `sysC5` after saving `NEW` under the unknown-vault
id `x:y` (app-managed side document). -/
def fsC5c : FsNode :=
  .dir [(s2l "home", .dir [(s2l "w", .dir [(s2l "note.md", .file (s2l "REAL"))])]),
        (s2l "base", .dir [(s2l "contents",
            .dir [(s2l "v:note.md.json", .file (s2l "SIDE")),
                  (s2l "x:y.json", .file (s2l "NEW"))])])]

/-- Witness for C5, exercising all three parts on `sysC5`: the direct
read of the real file, the direct write to it, and the app-managed
side-document fallback for an id whose vault is unknown. -/
theorem content_direct_iff_path_field_witness :
    (load_file_content sysC5 (s2l "v:note.md") = .ok (s2l "REAL")) ∧
    (({ sysC5 with fs := fsC5b } : Sys).fs.lookup
        (resolveP sysC5.cwd (pushPath (parsePath (s2l "w")) (parsePath (s2l "note.md")))) =
      some (.file (s2l "NEW"))) ∧
    ((∃ vroot, find_vault_folder_for_file sysC5 (s2l "x:y") = some vroot ∧
        ({ sysC5 with fs := fsC5c } : Sys).fs.lookup (vaultSideDoc vroot (s2l "x:y")) =
          some (.file (s2l "NEW"))) ∨
      (find_vault_folder_for_file sysC5 (s2l "x:y") = none ∧
        ({ sysC5 with fs := fsC5c } : Sys).fs.lookup (appSideDoc sysC5.baseDir (s2l "x:y")) =
          some (.file (s2l "NEW")))) :=
  ⟨(content_direct_iff_path_field sysC5 (s2l "v:note.md") (s2l "v") (s2l "note.md")
      (s2l "w") (s2l "REAL") (s2l "NEW") rfl).1 rfl rfl,
   (content_direct_iff_path_field sysC5 (s2l "v:note.md") (s2l "v") (s2l "note.md")
      (s2l "w") (s2l "REAL") (s2l "NEW") rfl).2.1 rfl { sysC5 with fs := fsC5b } rfl,
   (content_direct_iff_path_field sysC5 (s2l "x:y") (s2l "x") (s2l "y")
      (s2l "w") (s2l "REAL") (s2l "NEW") rfl).2.2 rfl { sysC5 with fs := fsC5c } rfl⟩

/-! ### Toolkit: the sibling comparator is a total preorder -/

theorem strCompare_nil_ne_gt : ∀ b : Str, strCompare [] b ≠ .gt := by
  intro b
  cases b <;> simp [strCompare]

theorem strCompare_cons_nil_gt (x : Char) (xs : Str) : strCompare (x :: xs) [] = .gt := rfl

theorem strCompare_self : ∀ s : Str, strCompare s s = .eq := by
  intro s
  induction s with
  | nil => rfl
  | cons x xs ih => simp [strCompare, ih]

theorem strCompare_trans_le : ∀ (a b c : Str),
    strCompare a b ≠ .gt → strCompare b c ≠ .gt → strCompare a c ≠ .gt := by
  intro a
  induction a with
  | nil => intro b c _ _; exact strCompare_nil_ne_gt c
  | cons x xs ih =>
    intro b c h1 h2
    cases b with
    | nil => exact absurd (strCompare_cons_nil_gt x xs) h1
    | cons y ys =>
      cases c with
      | nil => exact absurd (strCompare_cons_nil_gt y ys) h2
      | cons z zs =>
        simp only [strCompare] at h1 h2 ⊢
        by_cases hxy : x = y
        · subst hxy
          rw [if_pos rfl] at h1
          by_cases hxz : x = z
          · subst hxz
            rw [if_pos rfl] at h2 ⊢
            exact ih ys zs h1 h2
          · rw [if_neg hxz] at h2 ⊢
            exact h2
        · rw [if_neg hxy] at h1
          by_cases hlt : x < y
          · by_cases hyz : y = z
            · have hxz : ¬ x = z := by rw [← hyz]; exact hxy
              have hxz2 : x < z := by rw [← hyz]; exact hlt
              rw [if_neg hxz, if_pos hxz2]
              simp
            · rw [if_neg hyz] at h2
              by_cases hlt2 : y < z
              · have hxz2 : x < z := lt_trans hlt hlt2
                rw [if_neg (ne_of_lt hxz2), if_pos hxz2]
                simp
              · rw [if_neg hlt2] at h2
                exact absurd rfl h2
          · rw [if_neg hlt] at h1
            exact absurd rfl h1

theorem strCompare_gt_asymm : ∀ (a b : Str),
    strCompare a b = .gt → strCompare b a = .gt → False := by
  intro a
  induction a with
  | nil => intro b h1 _; exact strCompare_nil_ne_gt b h1
  | cons x xs ih =>
    intro b h1 h2
    cases b with
    | nil => exact strCompare_nil_ne_gt _ h2
    | cons y ys =>
      simp only [strCompare] at h1 h2
      by_cases hxy : x = y
      · subst hxy
        rw [if_pos rfl] at h1 h2
        exact ih ys h1 h2
      · have hyx : ¬ y = x := fun hh => hxy hh.symm
        rw [if_neg hxy] at h1
        rw [if_neg hyx] at h2
        by_cases hlt : x < y
        · rw [if_pos hlt] at h1
          cases h1
        · by_cases hlt2 : y < x
          · rw [if_pos hlt2] at h2
            cases h2
          · rcases lt_or_gt_of_ne hxy with h | h
            · exact absurd h hlt
            · exact absurd h hlt2

theorem strCompare_antisymm : ∀ (a b : Str),
    strCompare a b ≠ .gt → strCompare b a ≠ .gt → a = b := by
  intro a
  induction a with
  | nil =>
    intro b _ h2
    cases b with
    | nil => rfl
    | cons y ys => exact absurd (strCompare_cons_nil_gt y ys) h2
  | cons x xs ih =>
    intro b h1 h2
    cases b with
    | nil => exact absurd (strCompare_cons_nil_gt x xs) h1
    | cons y ys =>
      simp only [strCompare] at h1 h2
      by_cases hxy : x = y
      · subst hxy
        rw [if_pos rfl] at h1 h2
        rw [ih ys h1 h2]
      · have hyx : ¬ y = x := fun hh => hxy hh.symm
        rw [if_neg hxy] at h1
        rw [if_neg hyx] at h2
        by_cases hlt : x < y
        · have : ¬ y < x := lt_asymm hlt
          rw [if_neg this] at h2
          exact absurd rfl h2
        · rw [if_neg hlt] at h1
          exact absurd rfl h1

/-- Characterisation of `nodeLe`. -/
theorem nodeLe_iff (a b : Node) :
    nodeLe a b = true ↔
      (isFolderN a = true ∧ isFolderN b = false) ∨
      (isFolderN a = isFolderN b ∧ strCompare a.name b.name ≠ .gt) := by
  unfold nodeLe cmpNode
  cases ha : isFolderN a <;> cases hb : isFolderN b <;>
    simp [ha, hb] <;>
    cases hc : strCompare a.name b.name <;> simp [hc]

theorem nodeLe_trans (a b c : Node) (h1 : nodeLe a b = true) (h2 : nodeLe b c = true) :
    nodeLe a c = true := by
  rw [nodeLe_iff] at h1 h2 ⊢
  rcases h1 with ⟨ha, hb⟩ | ⟨hab, hcmp1⟩ <;> rcases h2 with ⟨hb', hc⟩ | ⟨hbc, hcmp2⟩
  · rw [hb] at hb'
    cases hb'
  · exact Or.inl ⟨ha, hbc ▸ hb⟩
  · exact Or.inl ⟨hab ▸ hb', hc⟩
  · exact Or.inr ⟨hab.trans hbc, strCompare_trans_le _ _ _ hcmp1 hcmp2⟩

theorem nodeLe_total (a b : Node) : nodeLe a b = true ∨ nodeLe b a = true := by
  rw [nodeLe_iff, nodeLe_iff]
  by_cases hgt : strCompare a.name b.name = .gt
  · have hba : strCompare b.name a.name ≠ .gt := fun h2 => strCompare_gt_asymm _ _ hgt h2
    cases ha : isFolderN a <;> cases hb : isFolderN b <;> simp [hba]
  · cases ha : isFolderN a <;> cases hb : isFolderN b <;> simp [hgt]

theorem nodeLe_antisymm_key (a b : Node) (h1 : nodeLe a b = true)
    (h2 : nodeLe b a = true) : isFolderN a = isFolderN b ∧ a.name = b.name := by
  rw [nodeLe_iff] at h1 h2
  rcases h1 with ⟨ha, hb⟩ | ⟨hab, hcmp1⟩
  · rcases h2 with ⟨hb', ha'⟩ | ⟨hba, _⟩
    · rw [ha] at ha'
      cases ha'
    · rw [hba, ha] at hb
      cases hb
  · rcases h2 with ⟨hb', ha'⟩ | ⟨_, hcmp2⟩
    · rw [hab, hb'] at ha'
      cases ha'
    · exact ⟨hab, strCompare_antisymm _ _ hcmp1 hcmp2⟩

/-! ### Toolkit: sorting -/

abbrev nodeLeP (a b : Node) : Prop := nodeLe a b = true

theorem insertNode_perm (x : Node) : ∀ l : List Node, (insertNode x l).Perm (x :: l) := by
  intro l
  induction l with
  | nil => exact List.Perm.refl _
  | cons y ys ih =>
    by_cases h : nodeLe x y = true
    · simp [insertNode, h]
    · simp only [insertNode, h, Bool.false_eq_true, if_false]
      exact ((ih.cons y).trans (List.Perm.swap x y ys))

theorem sortNodes_perm : ∀ l : List Node, (sortNodes l).Perm l := by
  intro l
  induction l with
  | nil => exact List.Perm.refl _
  | cons x xs ih =>
    exact ((insertNode_perm x (sortNodes xs)).trans (ih.cons x))

theorem insertNode_pairwise (x : Node) : ∀ l : List Node,
    l.Pairwise nodeLeP → (insertNode x l).Pairwise nodeLeP := by
  intro l
  induction l with
  | nil => intro _; simp [insertNode]
  | cons y ys ih =>
    intro hp
    rw [List.pairwise_cons] at hp
    by_cases h : nodeLe x y = true
    · simp only [insertNode, h, if_true]
      rw [List.pairwise_cons]
      refine ⟨?_, List.pairwise_cons.mpr hp⟩
      intro z hz
      rcases List.mem_cons.mp hz with rfl | hz'
      · exact h
      · exact nodeLe_trans x y z h (hp.1 z hz')
    · simp only [insertNode, h, Bool.false_eq_true, if_false]
      rw [List.pairwise_cons]
      have hyx : nodeLe y x = true := by
        rcases nodeLe_total x y with h' | h'
        · exact absurd h' h
        · exact h'
      refine ⟨?_, ih hp.2⟩
      intro z hz
      have hz' := (insertNode_perm x ys).mem_iff.mp hz
      rcases List.mem_cons.mp hz' with rfl | hz''
      · exact hyx
      · exact hp.1 z hz''

theorem sortNodes_pairwise : ∀ l : List Node, (sortNodes l).Pairwise nodeLeP := by
  intro l
  induction l with
  | nil => simp [sortNodes]
  | cons x xs ih => exact insertNode_pairwise x (sortNodes xs) ih

/-- Two sorted lists of nodes with duplicate-free names that are
permutations of each other are equal. -/
theorem sorted_perm_nodupNames_eq : ∀ (l₁ l₂ : List Node), l₁.Perm l₂ →
    l₁.Pairwise nodeLeP → l₂.Pairwise nodeLeP →
    (l₁.map Node.name).Nodup → l₁ = l₂ := by
  intro l₁
  induction l₁ with
  | nil =>
    intro l₂ hp _ _ _
    exact List.Perm.nil_eq hp
  | cons x xs ih =>
    intro l₂ hp hs1 hs2 hnd
    cases l₂ with
    | nil => exact absurd hp.symm (by simp)
    | cons y ys =>
      have hxy : x = y := by
        by_contra hne
        have hxmem : x ∈ y :: ys := hp.mem_iff.mp (List.mem_cons_self _ _)
        have hymem : y ∈ x :: xs := hp.mem_iff.mpr (List.mem_cons_self _ _)
        have hx : x ∈ ys := by
          rcases List.mem_cons.mp hxmem with h | h
          · exact absurd h hne
          · exact h
        have hy : y ∈ xs := by
          rcases List.mem_cons.mp hymem with h | h
          · exact absurd h.symm hne
          · exact h
        have h1 : nodeLe x y = true := (List.pairwise_cons.mp hs1).1 y hy
        have h2 : nodeLe y x = true := (List.pairwise_cons.mp hs2).1 x hx
        have hname := (nodeLe_antisymm_key x y h1 h2).2
        rw [List.map_cons, List.nodup_cons] at hnd
        exact hnd.1 (hname ▸ List.mem_map_of_mem Node.name hy)
      subst hxy
      have hp' := hp.cons_inv
      rw [ih ys hp' (List.pairwise_cons.mp hs1).2 (List.pairwise_cons.mp hs2).2
        (by rw [List.map_cons, List.nodup_cons] at hnd; exact hnd.2)]

/-! ### The ordering invariant of the scanner -/

/-- The sibling-ordering property of a `children` sequence: a non-folder
never precedes a folder, and within a run of equal folder-status the
names are non-decreasing in the byte-wise order. -/
def sibOk (l : List Node) : Prop :=
  l.Pairwise (fun a b =>
    (isFolderN b = true → isFolderN a = true) ∧
    (isFolderN a = isFolderN b → strCompare a.name b.name ≠ .gt))

/-- Every `children` sequence of the node, at every depth, satisfies
`sibOk`. -/
inductive AllSorted : Node → Prop where
  | leaf (i n t : Str) (c : Option Str) (p : Option Str) :
      AllSorted (Node.mk i n t none c p)
  | node (i n t : Str) (cs : List Node) (c : Option Str) (p : Option Str)
      (hsib : sibOk cs) (hrec : ∀ x ∈ cs, AllSorted x) :
      AllSorted (Node.mk i n t (some cs) c p)

theorem nodeLe_imp_sib (a b : Node) (h : nodeLeP a b) :
    (isFolderN b = true → isFolderN a = true) ∧
    (isFolderN a = isFolderN b → strCompare a.name b.name ≠ .gt) := by
  rw [nodeLeP, nodeLe_iff] at h
  rcases h with ⟨ha, hb⟩ | ⟨hab, hcmp⟩
  · constructor
    · intro hbt
      rw [hbt] at hb
      cases hb
    · intro heq
      rw [ha, hb] at heq
      cases heq
  · constructor
    · intro hbt
      rw [hab, hbt]
    · intro _
      exact hcmp

theorem pairwise_imp_sibOk (l : List Node) (h : l.Pairwise nodeLeP) : sibOk l :=
  h.imp (fun hab => nodeLe_imp_sib _ _ hab)

/-! ### Toolkit: scanner helpers -/

theorem scanRaw_eq_filterMap (rel : List Str) (pid : Option Str) (pfx : Str) :
    ∀ es : List (Str × FsNode),
      scanRaw rel pid pfx es = es.filterMap (scanEntry rel pid pfx) := by
  intro es
  induction es with
  | nil => simp [scanRaw]
  | cons e rest ih =>
    rw [show scanRaw rel pid pfx (e :: rest) =
        (match scanEntry rel pid pfx e with
         | some nd => nd :: scanRaw rel pid pfx rest
         | none => scanRaw rel pid pfx rest) from by rw [scanRaw]]
    cases h : scanEntry rel pid pfx e with
    | some nd => simp [List.filterMap_cons, h, ih]
    | none => simp [List.filterMap_cons, h, ih]

theorem scanEntry_some {rel : List Str} {pid : Option Str} {pfx : Str}
    {n : Str} {nd : FsNode} {node : Node}
    (h : scanEntry rel pid pfx (n, nd) = some node) :
    node.name = n ∧ hiddenName n = false := by
  rw [scanEntry] at h
  cases hh : hiddenName n with
  | true => rw [hh] at h; simp at h
  | false =>
    rw [hh] at h
    simp only [Bool.false_eq_true, if_false] at h
    cases nd with
    | file c =>
      simp only [Option.some.injEq] at h
      rw [← h]
      exact ⟨rfl, rfl⟩
    | dir sub =>
      simp only [Option.some.injEq] at h
      rw [← h]
      exact ⟨rfl, rfl⟩

theorem scanRaw_names_sublist (rel : List Str) (pid : Option Str) (pfx : Str) :
    ∀ es : List (Str × FsNode),
      ((scanRaw rel pid pfx es).map Node.name).Sublist (es.map Prod.fst) := by
  intro es
  induction es with
  | nil => simp [scanRaw]
  | cons e rest ih =>
    obtain ⟨n, nd⟩ := e
    rw [show scanRaw rel pid pfx ((n, nd) :: rest) =
        (match scanEntry rel pid pfx (n, nd) with
         | some node => node :: scanRaw rel pid pfx rest
         | none => scanRaw rel pid pfx rest) from by rw [scanRaw]]
    cases h : scanEntry rel pid pfx (n, nd) with
    | some node =>
      simp only [List.map_cons]
      rw [(scanEntry_some h).1]
      exact ih.cons₂ n
    | none =>
      simp only [List.map_cons]
      exact ih.cons n

theorem scanRaw_mem {rel : List Str} {pid : Option Str} {pfx : Str}
    {es : List (Str × FsNode)} {nd : Node} (h : nd ∈ scanRaw rel pid pfx es) :
    ∃ e ∈ es, scanEntry rel pid pfx e = some nd := by
  rw [scanRaw_eq_filterMap] at h
  obtain ⟨e, he, hfe⟩ := List.mem_filterMap.mp h
  exact ⟨e, he, hfe⟩

mutual

/-- "Same directory contents": equal files, and directories whose entry
lists agree up to reordering (at this level) with recursively same
contents entry-by-entry. -/
inductive SameFs : FsNode → FsNode → Prop where
  | file (c : Str) : SameFs (.file c) (.file c)
  | dir {es mid es' : List (Str × FsNode)} (hperm : es.Perm mid)
      (hpt : SameList mid es') : SameFs (.dir es) (.dir es')

/-- Pointwise "same contents" on directory listings: same names in the
same order, recursively same entries. -/
inductive SameList : List (Str × FsNode) → List (Str × FsNode) → Prop where
  | nil : SameList [] []
  | cons {n : Str} {a b : FsNode} {l l' : List (Str × FsNode)} :
      SameFs a b → SameList l l' → SameList ((n, a) :: l) ((n, b) :: l')

end

/-- Two directory listings with the same contents: one is a reordering
of the other up to recursively-same entries. -/
def SameEntries (es es' : List (Str × FsNode)) : Prop :=
  ∃ mid, es.Perm mid ∧ SameList mid es'

theorem perm_sizeOf_eq : ∀ {es mid : List (Str × FsNode)}, es.Perm mid →
    sizeOf es = sizeOf mid := by
  intro es mid h
  induction h with
  | nil => rfl
  | cons x _ ih => simp [ih]
  | swap x y l => simp; omega
  | trans _ _ ih1 ih2 => exact ih1.trans ih2

theorem scan_allSorted : ∀ (N : Nat) (es : List (Str × FsNode)), sizeOf es ≤ N →
    ∀ rel pid pfx, (scan_directory es rel pid pfx).Pairwise nodeLeP ∧
      (∀ nd ∈ scan_directory es rel pid pfx, AllSorted nd) := by
  intro N
  induction N with
  | zero =>
    intro es h
    exfalso
    cases es with
    | nil => simp at h
    | cons e rest => simp at h
  | succ N ih =>
    intro es hsize rel pid pfx
    have heq : scan_directory es rel pid pfx = sortNodes (scanRaw rel pid pfx es) := by
      rw [scan_directory]
    constructor
    · rw [heq]
      exact sortNodes_pairwise _
    · intro nd hmem
      rw [heq] at hmem
      have hmem2 : nd ∈ scanRaw rel pid pfx es := (sortNodes_perm _).mem_iff.mp hmem
      obtain ⟨e, he, hentry⟩ := scanRaw_mem hmem2
      obtain ⟨n, sub⟩ := e
      simp only [scanEntry] at hentry
      cases hhid : hiddenName n with
      | true => rw [hhid] at hentry; simp at hentry
      | false =>
        rw [hhid] at hentry
        simp only [Bool.false_eq_true, if_false] at hentry
        cases sub with
        | file c =>
          simp only [Option.some.injEq] at hentry
          rw [← hentry]
          exact AllSorted.leaf _ _ _ _ _
        | dir sub =>
          simp only [Option.some.injEq] at hentry
          have hszsub : sizeOf sub ≤ N := by
            have h1 := List.sizeOf_lt_of_mem he
            have h2 : sizeOf sub < sizeOf (n, FsNode.dir sub) := by
              simp only [Prod.mk.sizeOf_spec, FsNode.dir.sizeOf_spec]
              omega
            omega
          have hrec := ih sub hszsub (rel ++ [n])
            (some (pfx ++ joinSegs (rel ++ [n]))) pfx
          rw [← hentry]
          exact AllSorted.node _ _ _ _ _ _ (pairwise_imp_sibOk _ hrec.1) hrec.2

theorem scan_deterministic : ∀ (N : Nat) (es es' : List (Str × FsNode)),
    sizeOf es ≤ N → FsNode.Wf (.dir es) → SameEntries es es' →
    ∀ rel pid pfx, scan_directory es rel pid pfx = scan_directory es' rel pid pfx := by
  intro N
  induction N with
  | zero =>
    intro es es' h
    exfalso
    cases es with
    | nil => simp at h
    | cons e rest => simp at h
  | succ N ih =>
    intro es es' hsize hwf hsame rel pid pfx
    obtain ⟨mid, hperm, hpt⟩ := hsame
    have hsz_mid : sizeOf mid = sizeOf es := (perm_sizeOf_eq hperm).symm
    have hwfm : ∀ p ∈ mid, FsNode.Wf p.2 := by
      intro p hp
      cases hwf with
      | dir _ _ hw => exact hw p (hperm.symm.subset hp)
    have h2 : ∀ (m e2 : List (Str × FsNode)), sizeOf m ≤ sizeOf es →
        (∀ p ∈ m, FsNode.Wf p.2) → SameList m e2 →
        scanRaw rel pid pfx m = scanRaw rel pid pfx e2 := by
      intro m
      induction m with
      | nil =>
        intro e2 _ _ hf
        cases hf
        rfl
      | cons a l ihm =>
        intro e2 hsz hwfl hf
        cases hf with
        | cons hab hrest =>
          rename_i n nda ndb l'
          have hentry : scanEntry rel pid pfx (n, nda) = scanEntry rel pid pfx (n, ndb) := by
            cases hab with
            | file c => rfl
            | dir hperm2 hpt2 =>
              rename_i sub mid2 sub'
              simp only [scanEntry]
              cases hhid : hiddenName n with
              | true => simp
              | false =>
                simp only [Bool.false_eq_true, if_false]
                have hsub_wf : FsNode.Wf (.dir sub) := hwfl (n, .dir sub) (List.mem_cons_self _ _)
                have hsub_sz : sizeOf sub ≤ N := by
                  have h2' : sizeOf sub < sizeOf (n, FsNode.dir sub) := by
                    simp only [Prod.mk.sizeOf_spec, FsNode.dir.sizeOf_spec]
                    omega
                  have h3' : sizeOf (n, FsNode.dir sub) ≤ sizeOf ((n, FsNode.dir sub) :: l) := by
                    simp only [List.cons.sizeOf_spec]
                    omega
                  omega
                rw [ih sub sub' hsub_sz hsub_wf ⟨mid2, hperm2, hpt2⟩]
          rw [show scanRaw rel pid pfx ((n, nda) :: l) =
              (match scanEntry rel pid pfx (n, nda) with
               | some nd => nd :: scanRaw rel pid pfx l
               | none => scanRaw rel pid pfx l) from by rw [scanRaw]]
          rw [show scanRaw rel pid pfx ((n, ndb) :: l') =
              (match scanEntry rel pid pfx (n, ndb) with
               | some nd => nd :: scanRaw rel pid pfx l'
               | none => scanRaw rel pid pfx l') from by rw [scanRaw]]
          have hl : scanRaw rel pid pfx l = scanRaw rel pid pfx l' := by
            refine ihm l' ?_ ?_ hrest
            · have : sizeOf l ≤ sizeOf ((n, nda) :: l) := by
                simp only [List.cons.sizeOf_spec]
                omega
              omega
            · intro p hp
              exact hwfl p (List.mem_cons_of_mem _ hp)
          rw [hentry, hl]
    have hraw : (scanRaw rel pid pfx es).Perm (scanRaw rel pid pfx es') := by
      have hp1 : (scanRaw rel pid pfx es).Perm (scanRaw rel pid pfx mid) := by
        rw [scanRaw_eq_filterMap, scanRaw_eq_filterMap]
        exact hperm.filterMap _
      rw [h2 mid es' (le_of_eq hsz_mid) hwfm hpt] at hp1
      exact hp1
    have heq1 : scan_directory es rel pid pfx = sortNodes (scanRaw rel pid pfx es) := by
      rw [scan_directory]
    have heq2 : scan_directory es' rel pid pfx = sortNodes (scanRaw rel pid pfx es') := by
      rw [scan_directory]
    rw [heq1, heq2]
    refine sorted_perm_nodupNames_eq _ _ ?_ (sortNodes_pairwise _) (sortNodes_pairwise _) ?_
    · exact (sortNodes_perm _).trans (hraw.trans (sortNodes_perm _).symm)
    · have hnames : ((scanRaw rel pid pfx es).map Node.name).Nodup := by
        have hnd : (es.map Prod.fst).Nodup := by
          cases hwf with
          | dir _ hn _ => exact hn
        exact List.Nodup.sublist (scanRaw_names_sublist rel pid pfx es) hnd
      have hpm : ((sortNodes (scanRaw rel pid pfx es)).map Node.name).Perm
          ((scanRaw rel pid pfx es).map Node.name) := (sortNodes_perm _).map _
      exact hpm.nodup_iff.mpr hnames

/-- C3: in every children sequence produced by the directory scanner, at
every directory level, every FOLDER node precedes every FILE/CANVAS
node, within each of the two groups the names are non-decreasing in the
case-sensitive byte order, and two listings of the same directory
contents (same entries up to `read_dir` order, recursively) with
duplicate-free names produce exactly the same ordered tree. -/
theorem scan_directory_ordered_deterministic (es es' : List (Str × FsNode))
    (rel : List Str) (pid : Option Str) (pfx : Str)
    (hwf : FsNode.Wf (.dir es)) (hsame : SameEntries es es') :
    sibOk (scan_directory es rel pid pfx) ∧
    (∀ nd ∈ scan_directory es rel pid pfx, AllSorted nd) ∧
    scan_directory es rel pid pfx = scan_directory es' rel pid pfx := by
  have h := scan_allSorted (sizeOf es) es (le_refl _) rel pid pfx
  exact ⟨pairwise_imp_sibOk _ h.1, h.2,
    scan_deterministic (sizeOf es) es es' (le_refl _) hwf hsame rel pid pfx⟩

/-- First C3 witness listing: `b.md`, a folder `A` containing
`c.canvas`, and `a.md`, in one `read_dir` order… -/
def esC3a : List (Str × FsNode) :=
  [(s2l "b.md", .file []),
   (s2l "A", .dir [(s2l "c.canvas", .file [])]),
   (s2l "a.md", .file [])]

/-- …and the same directory contents in another `read_dir` order. -/
def esC3b : List (Str × FsNode) :=
  [(s2l "A", .dir [(s2l "c.canvas", .file [])]),
   (s2l "b.md", .file []),
   (s2l "a.md", .file [])]

/-- Witness for C3: the two read orders of the same contents scan to the
same tree. -/
theorem scan_directory_ordered_deterministic_witness :
    scan_directory esC3a [] none (s2l "v:") = scan_directory esC3b [] none (s2l "v:") :=
  (scan_directory_ordered_deterministic esC3a esC3b [] none (s2l "v:")
    (by
      refine .dir _ (by decide) ?_
      intro e he
      simp only [esC3a, List.mem_cons, List.not_mem_nil, or_false] at he
      rcases he with rfl | rfl | rfl
      · exact .file _
      · refine .dir _ (by decide) ?_
        intro f hf
        simp only [List.mem_cons, List.not_mem_nil, or_false] at hf
        rcases hf with rfl
        exact .file _
      · exact .file _)
    ⟨esC3b,
     show esC3a.Perm esC3b from
       List.Perm.swap (s2l "A", FsNode.dir [(s2l "c.canvas", FsNode.file [])])
         (s2l "b.md", FsNode.file []) [(s2l "a.md", FsNode.file [])],
     show SameList esC3b esC3b from
       SameList.cons
         (SameFs.dir (List.Perm.refl _) (SameList.cons (SameFs.file []) SameList.nil))
         (SameList.cons (SameFs.file []) (SameList.cons (SameFs.file []) SameList.nil))⟩).2.2

/-! ### Claim C4: hidden entries never appear -/

mutual

/-- All names occurring in a node, at every depth. -/
def nodeNames (nd : Node) : List Str :=
  match nd with
  | .mk _ n _ none _ _ => [n]
  | .mk _ n _ (some cs) _ _ => n :: forestNames cs
termination_by (sizeOf nd, 0)

/-- All names occurring in a forest, at every depth. -/
def forestNames (l : List Node) : List Str :=
  match l with
  | [] => []
  | nd :: rest => nodeNames nd ++ forestNames rest
termination_by (sizeOf l, 1)

end

mutual

/-- Drop every hidden-named entry from a filesystem node, recursively. -/
def filterHiddenNode (nd : FsNode) : FsNode :=
  match nd with
  | .file c => .file c
  | .dir es => .dir (filterHiddenEntries es)
termination_by (sizeOf nd, 0)

/-- Drop every hidden-named entry from a directory listing, recursively. -/
def filterHiddenEntries (es : List (Str × FsNode)) : List (Str × FsNode) :=
  match es with
  | [] => []
  | (n, nd) :: rest =>
    if hiddenName n then filterHiddenEntries rest
    else (n, filterHiddenNode nd) :: filterHiddenEntries rest
termination_by (sizeOf es, 1)

end

theorem mem_forestNames : ∀ (l : List Node) (s : Str),
    s ∈ forestNames l ↔ ∃ nd ∈ l, s ∈ nodeNames nd := by
  intro l s
  induction l with
  | nil => simp [forestNames]
  | cons nd rest ih =>
    rw [show forestNames (nd :: rest) = nodeNames nd ++ forestNames rest from by
      rw [forestNames]]
    simp only [List.mem_append, ih, List.mem_cons]
    constructor
    · rintro (h | ⟨x, hx, hsx⟩)
      · exact ⟨nd, Or.inl rfl, h⟩
      · exact ⟨x, Or.inr hx, hsx⟩
    · rintro ⟨x, rfl | hx, hsx⟩
      · exact Or.inl hsx
      · exact Or.inr ⟨x, hx, hsx⟩

theorem scan_names_not_hidden : ∀ (N : Nat) (es : List (Str × FsNode)), sizeOf es ≤ N →
    ∀ rel pid pfx s, s ∈ forestNames (scan_directory es rel pid pfx) →
      hiddenName s = false := by
  intro N
  induction N with
  | zero =>
    intro es h
    exfalso
    cases es with
    | nil => simp at h
    | cons e rest => simp at h
  | succ N ih =>
    intro es hsize rel pid pfx s hmem
    have heq : scan_directory es rel pid pfx = sortNodes (scanRaw rel pid pfx es) := by
      rw [scan_directory]
    rw [heq, mem_forestNames] at hmem
    obtain ⟨nd, hnd, hs⟩ := hmem
    have hnd2 : nd ∈ scanRaw rel pid pfx es := (sortNodes_perm _).mem_iff.mp hnd
    obtain ⟨e, he, hentry⟩ := scanRaw_mem hnd2
    obtain ⟨n, sub⟩ := e
    have hname := scanEntry_some hentry
    simp only [scanEntry] at hentry
    rw [hname.2] at hentry
    simp only [Bool.false_eq_true, if_false] at hentry
    cases sub with
    | file c =>
      simp only [Option.some.injEq] at hentry
      rw [← hentry] at hs
      rw [show nodeNames (Node.mk (pfx ++ joinSegs (rel ++ [n])) n
          (if (s2l ".canvas").isSuffixOf n then s2l "CANVAS" else s2l "FILE")
          none none pid) = [n] from by rw [nodeNames]] at hs
      rw [List.mem_singleton.mp hs]
      exact hname.2
    | dir sub =>
      simp only [Option.some.injEq] at hentry
      rw [← hentry] at hs
      rw [show nodeNames (Node.mk (pfx ++ joinSegs (rel ++ [n])) n (s2l "FOLDER")
          (some (scan_directory sub (rel ++ [n])
            (some (pfx ++ joinSegs (rel ++ [n]))) pfx)) none pid) =
          n :: forestNames (scan_directory sub (rel ++ [n])
            (some (pfx ++ joinSegs (rel ++ [n]))) pfx) from by rw [nodeNames]] at hs
      rcases List.mem_cons.mp hs with rfl | hs'
      · exact hname.2
      · have hszsub : sizeOf sub ≤ N := by
          have h1 := List.sizeOf_lt_of_mem he
          have h2 : sizeOf sub < sizeOf (n, FsNode.dir sub) := by
            simp only [Prod.mk.sizeOf_spec, FsNode.dir.sizeOf_spec]
            omega
          omega
        exact ih sub hszsub _ _ pfx s hs'

theorem scanRaw_filterHidden : ∀ (N : Nat) (es : List (Str × FsNode)), sizeOf es ≤ N →
    ∀ rel pid pfx,
      scanRaw rel pid pfx (filterHiddenEntries es) = scanRaw rel pid pfx es := by
  intro N
  induction N with
  | zero =>
    intro es h
    exfalso
    cases es with
    | nil => simp at h
    | cons e rest => simp at h
  | succ N ih =>
    intro es hsize rel pid pfx
    cases es with
    | nil =>
      rw [show filterHiddenEntries ([] : List (Str × FsNode)) = [] from by
        rw [filterHiddenEntries]]
    | cons e rest =>
      obtain ⟨n, nd⟩ := e
      have hrest_sz : sizeOf rest ≤ N := by
        have : sizeOf rest < sizeOf ((n, nd) :: rest) := by
          simp only [List.cons.sizeOf_spec]
          omega
        omega
      rw [show filterHiddenEntries ((n, nd) :: rest) =
          (if hiddenName n then filterHiddenEntries rest
           else (n, filterHiddenNode nd) :: filterHiddenEntries rest) from by
        rw [filterHiddenEntries]]
      cases hhid : hiddenName n with
      | true =>
        simp only [if_true]
        rw [ih rest hrest_sz rel pid pfx]
        rw [show scanRaw rel pid pfx ((n, nd) :: rest) =
            (match scanEntry rel pid pfx (n, nd) with
             | some node => node :: scanRaw rel pid pfx rest
             | none => scanRaw rel pid pfx rest) from by rw [scanRaw]]
        rw [show scanEntry rel pid pfx (n, nd) = none from by
          simp [scanEntry, hhid]]
      | false =>
        simp only [Bool.false_eq_true, if_false]
        rw [show scanRaw rel pid pfx ((n, filterHiddenNode nd) :: filterHiddenEntries rest) =
            (match scanEntry rel pid pfx (n, filterHiddenNode nd) with
             | some node => node :: scanRaw rel pid pfx (filterHiddenEntries rest)
             | none => scanRaw rel pid pfx (filterHiddenEntries rest)) from by rw [scanRaw]]
        rw [show scanRaw rel pid pfx ((n, nd) :: rest) =
            (match scanEntry rel pid pfx (n, nd) with
             | some node => node :: scanRaw rel pid pfx rest
             | none => scanRaw rel pid pfx rest) from by rw [scanRaw]]
        have hentry : scanEntry rel pid pfx (n, filterHiddenNode nd) =
            scanEntry rel pid pfx (n, nd) := by
          cases nd with
          | file c =>
            rw [show filterHiddenNode (FsNode.file c) = FsNode.file c from by
              rw [filterHiddenNode]]
          | dir sub =>
            rw [show filterHiddenNode (.dir sub) = .dir (filterHiddenEntries sub) from by
              rw [filterHiddenNode]]
            simp only [scanEntry, hhid, Bool.false_eq_true, if_false]
            have hsub_sz : sizeOf sub ≤ N := by
              have h2 : sizeOf sub < sizeOf (n, FsNode.dir sub) := by
                simp only [Prod.mk.sizeOf_spec, FsNode.dir.sizeOf_spec]
                omega
              have h3 : sizeOf (n, FsNode.dir sub) ≤ sizeOf ((n, FsNode.dir sub) :: rest) := by
                simp only [List.cons.sizeOf_spec]
                omega
              omega
            rw [show scan_directory (filterHiddenEntries sub) (rel ++ [n])
                  (some (pfx ++ joinSegs (rel ++ [n]))) pfx =
                scan_directory sub (rel ++ [n])
                  (some (pfx ++ joinSegs (rel ++ [n]))) pfx from by
              rw [scan_directory, scan_directory, ih sub hsub_sz]]
        rw [hentry, ih rest hrest_sz rel pid pfx]

/-- C4: entries whose name begins with the reserved dot marker never
appear anywhere in the scanned node tree, at any nesting depth, and the
scanner never recurses into them — removing every hidden entry from the
input (at every depth) leaves the scan result unchanged. -/
theorem scan_skips_hidden (es : List (Str × FsNode)) (rel : List Str)
    (pid : Option Str) (pfx : Str) :
    (∀ s ∈ forestNames (scan_directory es rel pid pfx), hiddenName s = false) ∧
    scan_directory (filterHiddenEntries es) rel pid pfx =
      scan_directory es rel pid pfx := by
  constructor
  · intro s hs
    exact scan_names_not_hidden (sizeOf es) es (le_refl _) rel pid pfx s hs
  · rw [scan_directory, scan_directory,
      scanRaw_filterHidden (sizeOf es) es (le_refl _) rel pid pfx]

/-- Concrete listing for the C4 witness: a hidden `.git` directory
containing a visible file, plus a visible note. -/
def esC4 : List (Str × FsNode) :=
  [(s2l ".git", .dir [(s2l "x.md", .file [])]), (s2l "a.md", .file [])]

/-- Witness for C4: on `esC4` the visible name `a.md` is scanned and is
not hidden, and dropping the hidden entries does not change the scan. -/
theorem scan_skips_hidden_witness :
    hiddenName (s2l "a.md") = false ∧
    scan_directory (filterHiddenEntries esC4) [] none (s2l "v:") =
      scan_directory esC4 [] none (s2l "v:") :=
  ⟨(scan_skips_hidden esC4 [] none (s2l "v:")).1 (s2l "a.md")
      (by
        simp [scan_directory, scanRaw, scanEntry, sortNodes, insertNode, esC4,
          forestNames, nodeNames, mem_forestNames]),
   (scan_skips_hidden esC4 [] none (s2l "v:")).2⟩

end Focosx
